import Mathlib

/-!
Shallow embedding of the decision core of src/rebalancer.py (the
tax-loss-harvesting rebalancer): the target model (TargetAssetclass,
TargetPortfolio), the buy selector (Rebalancer._identify_buys), the
gain-harvesting selection loop of the sell selector
(Rebalancer._identify_sells) and the constrained quadratic allocation solver
(Rebalancer._identify_buy_amounts).  Currency amounts, prices, gains and
percentage targets are modelled as rationals; Python dictionaries that are
built in insertion order become ordered association lists; numpy arrays
become lists of rationals and boolean masks become lists of booleans, with
the length checks that numpy performs on boolean indexing made explicit.
Fallible code returns Except Err.
-/

namespace Rebalancer

/-- Failure modes of the Python source that the claims touch: a failed
assert, a ValidationError, a RebalancerError, the numpy IndexError raised by
a boolean index of the wrong length, and the TypeError produced in Python 3
by raising a plain string. -/
inductive Err where
  | assertionFailed : Err
  | validationError : Err
  | rebalancerError : Err
  | indexError : Err
  | typeError : Err
  deriving DecidableEq

/-- Decidable equality of Except values, used to evaluate runs of the
embedded code on concrete inputs. -/
instance {ε α : Type} [DecidableEq ε] [DecidableEq α] : DecidableEq (Except ε α) :=
  fun a b =>
    match a, b with
    | .error x, .error y =>
      if h : x = y then .isTrue (by rw [h]) else .isFalse (fun hc => by cases hc; exact h rfl)
    | .ok x, .ok y =>
      if h : x = y then .isTrue (by rw [h]) else .isFalse (fun hc => by cases hc; exact h rfl)
    | .error _, .ok _ => .isFalse (fun hc => by cases hc)
    | .ok _, .error _ => .isFalse (fun hc => by cases hc)

/-- Reserved asset-class name for unclassified holdings (constant OTHER_NAME). -/
def OTHER_NAME : String := "Other"

/-- Reserved asset-class name for cash (constant CASH_NAME). -/
def CASH_NAME : String := "Cash"

/-- Stable insertion of an element into a list ordered ascending by the
measure f: the new element passes over exactly the elements whose measure is
strictly smaller, so it lands before every element of equal measure that was
inserted earlier (the later original positions). -/
def insertAscBy {α : Type} (f : α → Rat) (a : α) : List α → List α
  | [] => [a]
  | b :: l => if f b < f a then b :: insertAscBy f a l else a :: b :: l

/-- Stable sort ascending by the measure f, the behaviour of Python sorted
with key f (stable sorts agree on every total preorder, so an insertion sort
is a faithful model of Timsort).  Sorting descending by loss, the source
passes key lambda x : -x[1], which is ascending by the negated measure. -/
def sortAscBy {α : Type} (f : α → Rat) : List α → List α
  | [] => []
  | a :: l => insertAscBy f a (sortAscBy f l)

/-- A target asset class as built by TargetAssetclass.__init__: the integer
percentage target, the name, the upper-cased tickers and their badness
scores.  Badness scores are optional (None is accepted); the Python check
i == int(i) becomes the denominator-one check on a rational. -/
structure TargetAssetclass where
  target : Rat
  name : String
  securities : List String
  badnessScores : List (Option Rat)
  deriving DecidableEq

/-- Check that the sorted list of distinct badness scores is a run of
consecutive values (unique_scores[i+1] - unique_scores[i] == 1 for all i). -/
def consecutiveCheck (l : List Rat) : Bool :=
  (l.zip l.tail).all (fun p => p.2 - p.1 == 1)

/-- Translated from TargetAssetclass.__init__: the asserts on the target
percentage, the length match between securities and badness scores, the
integrality and lower bound of the non-None badness scores, the presence of
a badness score equal to 1, the consecutiveness of the distinct non-None
scores, and the reserved-name check; on success the record stores the
upper-cased tickers. -/
def TargetAssetclass.init (target : Rat) (name : String) (securities : List String)
    (badnessScores : List (Option Rat)) : Except Err TargetAssetclass :=
  if ¬ (0 < target ∧ target ≤ 100) then .error .assertionFailed
  else if ¬ target.den = 1 then .error .assertionFailed
  else if ¬ badnessScores.length = securities.length then .error .assertionFailed
  else if ¬ badnessScores.all (fun i => i.elim true (fun q => q.den == 1)) then
    .error .assertionFailed
  else if ¬ badnessScores.all (fun i => i.elim true (fun q => 1 ≤ q)) then
    .error .assertionFailed
  else if ¬ badnessScores.any (fun i => i == some 1) then .error .assertionFailed
  else if ¬ consecutiveCheck (sortAscBy id (badnessScores.filterMap id).dedup) then
    .error .assertionFailed
  else if name = OTHER_NAME ∨ name = CASH_NAME then .error .validationError
  else .ok { target := target, name := name,
             securities := securities.map (fun s => s.toUpper),
             badnessScores := badnessScores }

/-- Translated from TargetAssetclass.securities: the tickers whose badness
score equals the given one, in declared order; a none filter returns every
ticker. -/
def TargetAssetclass.securitiesAt (a : TargetAssetclass) (b : Option Rat) : List String :=
  (a.securities.zip a.badnessScores).filterMap
    (fun p => if b = none ∨ p.2 = b then some p.1 else none)

/-- A target portfolio: the validated flag and the insertion-ordered
dictionary from asset-class name to asset class. -/
structure TargetPortfolio where
  validated : Bool
  assetclasses : List (String × TargetAssetclass)
  deriving DecidableEq

/-- The freshly initialized TargetPortfolio. -/
def TargetPortfolio.empty : TargetPortfolio :=
  { validated := false, assetclasses := [] }

/-- Translated from TargetPortfolio.add_assetclass: refuses once the
portfolio is validated, builds the asset class, refuses a duplicate name and
appends the class to the dictionary. -/
def TargetPortfolio.addAssetclass (p : TargetPortfolio) (target : Rat) (name : String)
    (securities : List String) (badnessScores : List (Option Rat)) :
    Except Err TargetPortfolio :=
  if p.validated then .error .assertionFailed
  else
    match TargetAssetclass.init target name securities badnessScores with
    | .error e => .error e
    | .ok a =>
      if (p.assetclasses.lookup a.name).isSome then .error .assertionFailed
      else .ok { p with assetclasses := p.assetclasses ++ [(a.name, a)] }

/-- The duplicate-security walk of TargetPortfolio.validate: classes are
visited in order with a running set of already-seen tickers, and the first
class that intersects it raises (the source raises a plain string, which in
Python 3 is a TypeError). -/
def dupCheck : List String → List (String × TargetAssetclass) → Except Err Unit
  | _, [] => .ok ()
  | seen, (_, a) :: rest =>
    if (a.securitiesAt none).any (fun s => s ∈ seen) then .error .typeError
    else dupCheck (seen ++ a.securitiesAt none) rest

/-- Translated from TargetPortfolio.validate: asserts the targets sum to
100, walks the classes for duplicated securities, then sets the validated
flag.  The source never tests whether validate already ran, so a second call
simply repeats the checks. -/
def TargetPortfolio.validate (p : TargetPortfolio) : Except Err TargetPortfolio :=
  if ¬ (p.assetclasses.map (fun c => c.2.target)).sum = 100 then .error .assertionFailed
  else
    match dupCheck [] p.assetclasses with
    | .error e => .error e
    | .ok _ => .ok { p with validated := true }

/-- Translated from TargetPortfolio.find_security: the first class whose
securities contain the symbol wins, and the badness is read at the first
index of the symbol in that class; a symbol in no class reports the Other
class with badness none.  Accessing target_assetclasses asserts the
portfolio was validated. -/
def TargetPortfolio.findSecurity (p : TargetPortfolio) (symbol : String) :
    Except Err (String × Option Rat) :=
  if ¬ p.validated then .error .assertionFailed
  else
    match p.assetclasses.find? (fun c => symbol ∈ c.2.securitiesAt none) with
    | some c =>
      .ok (c.1, (c.2.badnessScores.getD ((c.2.securitiesAt none).indexOf symbol) none))
    | none => .ok (OTHER_NAME, none)

/-- The per-class buy decision of Rebalancer._identify_buys: the chosen
security (none when the class is skipped) and its badness. -/
structure BuyRec where
  security : Option String
  badness : Option Rat
  deriving DecidableEq

/-- Translated from the forced-buy processing in Rebalancer.__init__: every
forced buy must name an asset class of the target portfolio; a none entry
becomes a skip record; a pinned security must belong to the named class
according to find_security, and its badness is the one find_security
reports.  No other property of the pinned security is examined. -/
def processForcedBuys (p : TargetPortfolio) :
    List (String × Option String) → Except Err (List (String × BuyRec))
  | [] => .ok []
  | (a, v) :: rest =>
    if ¬ p.validated then .error .assertionFailed
    else if (p.assetclasses.lookup a).isNone then .error .rebalancerError
    else
      match v with
      | none => (processForcedBuys p rest).map (fun r => (a, ⟨none, none⟩) :: r)
      | some s =>
        match p.findSecurity s with
        | .error e => .error e
        | .ok found =>
          if found.1 ≠ a then .error .rebalancerError
          else (processForcedBuys p rest).map (fun r => (a, ⟨some s, found.2⟩) :: r)

/-- The candidate list of one badness tier in Rebalancer._identify_buys:
securities of the tier that were not recently sold, paired with their loss
value, which is 0 for a recently bought security and otherwise the lots_loss
of the position (0 when the security is not held). -/
def buyOptionsAt (a : TargetAssetclass) (tier : Rat) (sold bought : List String)
    (lotsLoss : List (String × Rat)) : List (String × Rat) :=
  (a.securitiesAt (some tier)).filterMap
    (fun s =>
      if s ∈ sold then none
      else some (s, if s ∈ bought then 0 else (lotsLoss.lookup s).getD 0))

/-- The badness-tier loop of Rebalancer._identify_buys for one class without
a forced buy: starting at tier 1, while the tier has securities, sort the
candidates by loss in decreasing order (stable, as Python sorted) and pick
the first candidate when its absolute loss is within MAX_LOSS_TO_FORGO, else
move to the next tier; the loop in the source stops at the first empty tier,
which the fuel only needs to reach for the translation to agree. -/
def selectBuyAux (a : TargetAssetclass) (sold bought : List String)
    (lotsLoss : List (String × Rat)) (maxLoss : Rat) : Nat → Rat → Option BuyRec
  | 0, _ => none
  | fuel + 1, tier =>
    if a.securitiesAt (some tier) = [] then none
    else
      match sortAscBy (fun p => -p.2) (buyOptionsAt a tier sold bought lotsLoss) with
      | [] => selectBuyAux a sold bought lotsLoss maxLoss fuel (tier + 1)
      | o :: _ =>
        if |o.2| ≤ maxLoss then some ⟨some o.1, some tier⟩
        else selectBuyAux a sold bought lotsLoss maxLoss fuel (tier + 1)

/-- Fuel that reaches past every badness score of the class, so the tier
loop provably hits its first empty tier within the fuel. -/
def tierFuel (a : TargetAssetclass) : Nat :=
  (a.badnessScores.filterMap id).foldr (fun q m => max q.ceil.natAbs m) 0 + 2

/-- The automatic selection of Rebalancer._identify_buys for one asset
class, starting the tier loop at badness 1. -/
def selectBuy (a : TargetAssetclass) (sold bought : List String)
    (lotsLoss : List (String × Rat)) (maxLoss : Rat) : Option BuyRec :=
  selectBuyAux a sold bought lotsLoss maxLoss (tierFuel a) 1

/-- The class walk of Rebalancer._identify_buys: a class with a forced buy
takes it verbatim, any other class runs the tier loop, and a class that
resolves nothing makes the whole run fail with a RebalancerError (the source
raises after the loop upon comparing key sets, which is observably the
same). -/
def identifyBuysGo (forced : List (String × BuyRec)) (sold bought : List String)
    (lotsLoss : List (String × Rat)) (maxLoss : Rat) :
    List (String × TargetAssetclass) → Except Err (List (String × BuyRec))
  | [] => .ok []
  | (aName, a) :: rest =>
    let chosen :=
      match forced.lookup aName with
      | some r => some r
      | none => selectBuy a sold bought lotsLoss maxLoss
    match chosen with
    | none => .error .rebalancerError
    | some r =>
      (identifyBuysGo forced sold bought lotsLoss maxLoss rest).map
        (fun l => (aName, r) :: l)

/-- Translated from Rebalancer._identify_buys (current prices are immaterial
to the claims and are not modelled): walks the validated target classes in
declared order. -/
def identifyBuys (p : TargetPortfolio) (forced : List (String × BuyRec))
    (sold bought : List String) (lotsLoss : List (String × Rat)) (maxLoss : Rat) :
    Except Err (List (String × BuyRec)) :=
  if ¬ p.validated then .error .assertionFailed
  else identifyBuysGo forced sold bought lotsLoss maxLoss p.assetclasses

/-- A tax lot as the sell selector reads it from df_lots. -/
structure Lot where
  positionLotId : Nat
  symbol : String
  quantity : Rat
  gain : Rat
  marketValue : Rat
  deriving DecidableEq

/-- Sum of the first n entries, as the source computes
gaining_lots.iloc[0:n].gain.sum(): pandas clamps n at the length. -/
def takeSum (gains : List Rat) (n : Nat) : Rat :=
  (gains.take n).sum

/-- Translated from the gain-harvesting while loop of
Rebalancer._identify_sells: starting from zero selected lots, while the
cumulative gain of one more lot than currently selected is below
MAX_GAIN_TO_SELL, take that lot, breaking once the count reaches the number
of winning lots.  The Python loop is unbounded, so the translation carries
fuel and returns none exactly when the source loop would still be running
after that many iterations. -/
def gainLoop (gains : List Rat) (maxGain : Rat) : Nat → Nat → Option Nat
  | 0, _ => none
  | fuel + 1, k =>
    if takeSum gains (k + 1) < maxGain then
      if k + 1 = gains.length then some (k + 1)
      else gainLoop gains maxGain fuel (k + 1)
    else some k

/-- The winning lots of a security sorted ascending by gain, as the query
(symbol == s) and (gain > 0) with sort_values(gain) produces them (the
pandas sort need not be stable; ties here keep original order, one
admissible outcome). -/
def gainingLots (lots : List Lot) (symbol : String) : List Lot :=
  sortAscBy (fun l => l.gain) (lots.filter (fun l => l.symbol == symbol && 0 < l.gain))

/-- Number of winning lots of a security that Pass 2 of
Rebalancer._identify_sells selects, given fuel for the unbounded loop. -/
def gainHarvestCount (lots : List Lot) (symbol : String) (maxGain : Rat)
    (fuel : Nat) : Option Nat :=
  gainLoop ((gainingLots lots symbol).map (fun l => l.gain)) maxGain fuel 0

/-- Boolean-mask selection v[m] as numpy computes it when the mask length
matches; the checked variant below guards the places where the source can
get the length wrong. -/
def maskSelect (v : List Rat) (m : List Bool) : List Rat :=
  (v.zip m).filterMap (fun p => if p.2 then some p.1 else none)

/-- Checked boolean-mask read v[m]: numpy raises IndexError when a boolean
index does not match the indexed array in length. -/
def maskSelectE (v : List Rat) (m : List Bool) : Except Err (List Rat) :=
  if m.length = v.length then .ok (maskSelect v m) else .error .indexError

/-- Masked assignment v[m] = w walking the three lists: positions where the
mask holds take successive elements of w. -/
def maskAssignGo : List Rat → List Bool → List Rat → List Rat
  | [], _, _ => []
  | v :: vs, [], _ => v :: vs
  | _ :: vs, true :: ms, w :: ws => w :: maskAssignGo vs ms ws
  | v :: vs, true :: ms, [] => v :: maskAssignGo vs ms []
  | v :: vs, false :: ms, ws => v :: maskAssignGo vs ms ws

/-- Checked masked assignment v[m] = w: numpy raises IndexError when the
mask length does not match the array, or when w does not hold exactly one
element per true mask position. -/
def maskAssignE (v : List Rat) (m : List Bool) (w : List Rat) :
    Except Err (List Rat) :=
  if m.length = v.length ∧ w.length = m.count true then .ok (maskAssignGo v m w)
  else .error .indexError

/-- The statement Imj[J] = False of the source: positions selected by the
boolean index J are forced to false; numpy raises IndexError when J has the
wrong length. -/
def maskForceFalse (m : List Bool) (j : List Bool) : Except Err (List Bool) :=
  if j.length = m.length then
    .ok (m.zipWith (fun b jb => if jb then false else b) j)
  else .error .indexError

/-- Division as numpy performs it on float arrays: a zero divisor does not
raise; it yields an inf or nan that stays abstract through the junk
parameter (indexed by the numerator), and the second component records that
a division by zero happened. -/
def npDiv (junk : Rat → Rat) (a b : Rat) : Rat × Bool :=
  if b = 0 then (junk a, true) else (a / b, false)

/-- State of the clamping loop of Rebalancer._identify_buy_amounts: the
iterate x, the multipliers mu, and a flag recording whether a gamma was
computed through a division by zero. -/
structure SolveState where
  x : List Rat
  mu : List Rat
  divGamma : Bool
  deriving DecidableEq

/-- One iteration of the clamping loop of Rebalancer._identify_buy_amounts,
with the boolean-index operations length-checked exactly where numpy would
raise: J is computed over the compressed vectors x[I] and ell[I] (length N),
and the source then uses it to index the full-length Imj, ell, chi and mu,
which only matches when every asset class is in the active set. -/
def solveStep (junk : Rat → Rat) (chi ell : List Rat) (total : Rat)
    (bigI : List Bool) (nn : Nat) (st : SolveState) : Except Err SolveState :=
  let xI := maskSelect st.x bigI
  let ellI := maskSelect ell bigI
  let jj := xI.zipWith (fun a b => decide (a ≤ b)) ellI
  match maskForceFalse bigI jj with
  | .error e => .error e
  | .ok imj =>
    match maskSelectE ell jj with
    | .error e => .error e
    | .ok ellJ =>
      let gp := npDiv junk 2 ((nn : Rat) - (jj.count true : Nat))
      let gamma := gp.1 * ((maskSelect chi imj).sum + ellJ.sum - total)
      match maskSelectE chi jj with
      | .error e => .error e
      | .ok chiJ =>
        match maskAssignE st.mu jj (ellJ.zipWith (fun e c => 2 * (e - c) + gamma) chiJ) with
        | .error e => .error e
        | .ok mu2 =>
          match maskAssignE st.x bigI
              ((maskSelect chi bigI).zipWith (fun c m => c + (1 / 2) * (m - gamma))
                (maskSelect mu2 bigI)) with
          | .error e => .error e
          | .ok x2 => .ok ⟨x2, mu2, st.divGamma || gp.2⟩

/-- The clamping loop: while some x[I] is strictly below its floor ell[I],
run a step; the source caps the loop at 1000 iterations, which the fuel
mirrors (the iteration counter i of the source counts up, the fuel counts
down). -/
def solveLoop (junk : Rat → Rat) (chi ell : List Rat) (total : Rat)
    (bigI : List Bool) (nn : Nat) : Nat → SolveState → Except Err SolveState
  | 0, st => .ok st
  | fuel + 1, st =>
    if 0 < ((maskSelect st.x bigI).zipWith (fun a b => decide (a < b))
        (maskSelect ell bigI)).count true then
      match solveStep junk chi ell total bigI nn st with
      | .error e => .error e
      | .ok st2 => solveLoop junk chi ell total bigI nn fuel st2
    else .ok st

/-- Result of Rebalancer._identify_buy_amounts: the per-class purchase
targets x - ell, a flag recording a division by zero while renormalizing chi
and a flag recording a division by zero while computing a gamma. -/
structure SolveResult where
  targetBuys : List Rat
  divChi : Bool
  divGamma : Bool
  deriving DecidableEq

/-- Translated from Rebalancer._identify_buy_amounts.  The inputs are the
columns of the asset-class table restricted to the target classes: the
target percentages, the expected post-sale balances ell, the active-set mask
I (buy_security not null) and cash_from_sales (every expected sale plus free
cash).  N counts the active classes, T is the active balance plus
cash_from_sales, chi renormalizes the targets over the active set and scales
by T, x starts at ell with x[I] set from the unconstrained optimum, the
clamping loop runs at most 1000 iterations, and each class reports the
purchase target x - ell. -/
def identifyBuyAmounts (junk : Rat → Rat) (targets ell : List Rat)
    (bigI : List Bool) (cashFromSales : Rat) : Except Err SolveResult :=
  let nn := bigI.count true
  let total := (maskSelect ell bigI).sum + cashFromSales
  let sTar := (maskSelect targets bigI).sum
  let chiP := targets.map (fun c => npDiv junk c sTar)
  let chi := chiP.map (fun p => p.1 * total)
  let g0 := npDiv junk 2 (nn : Rat)
  let gamma0 := g0.1 * ((maskSelect chi bigI).sum - total)
  match maskAssignE ell bigI
      ((maskSelect chi bigI).map (fun c => c - (1 / 2) * gamma0)) with
  | .error e => .error e
  | .ok x0 =>
    match solveLoop junk chi ell total bigI nn 1000
        ⟨x0, List.replicate chi.length 0, g0.2⟩ with
    | .error e => .error e
    | .ok st2 =>
      .ok { targetBuys := st2.x.zipWith (fun a b => a - b) ell,
            divChi := chiP.any (fun p => p.2),
            divGamma := st2.divGamma }

/-! Generic list lemmas used by the verification below. -/

theorem sum_eq_range_getD (l : List Rat) :
    l.sum = ∑ i ∈ Finset.range l.length, l.getD i 0 := by
  induction l with
  | nil => simp
  | cons a t ih =>
    rw [List.sum_cons, List.length_cons, Finset.sum_range_succ' (fun i => (a :: t).getD i 0)]
    simp only [List.getD_cons_succ, List.getD_cons_zero]
    rw [ih]; ring

theorem getD_eq_getElem_of_lt {α : Type} (l : List α) (d : α) (i : Nat) (h : i < l.length) :
    l.getD i d = l[i] := List.getD_eq_getElem l d h

theorem sum_pointwise (n : Nat) (x e : List Rat) (hx : x.length = n) (he : e.length = n)
    (hle : ∀ i, i < n → x.getD i 0 ≤ e.getD i 0) : x.sum ≤ e.sum := by
  rw [sum_eq_range_getD, sum_eq_range_getD, hx, he]
  exact Finset.sum_le_sum (fun i hi => hle i (Finset.mem_range.mp hi))

theorem sum_pointwise_lt (n : Nat) (x e : List Rat) (hx : x.length = n) (he : e.length = n)
    (hle : ∀ i, i < n → x.getD i 0 ≤ e.getD i 0)
    (hstrict : ∃ i, i < n ∧ x.getD i 0 < e.getD i 0) : x.sum < e.sum := by
  rw [sum_eq_range_getD, sum_eq_range_getD, hx, he]
  obtain ⟨j, hj, hjs⟩ := hstrict
  exact Finset.sum_lt_sum (fun i hi => hle i (Finset.mem_range.mp hi))
    ⟨j, Finset.mem_range.mpr hj, hjs⟩

theorem zipWith_sub_sum (x e : List Rat) (h : x.length = e.length) :
    (x.zipWith (fun a b => a - b) e).sum = x.sum - e.sum := by
  induction x generalizing e with
  | nil => cases e with
    | nil => simp
    | cons b t => simp at h
  | cons a t ih =>
    cases e with
    | nil => simp at h
    | cons b u =>
      simp only [List.zipWith_cons_cons, List.sum_cons]
      rw [ih u (by simpa using h)]; ring

theorem zipWith_add_sum (x e : List Rat) (h : x.length = e.length) :
    (x.zipWith (fun a b => a + b) e).sum = x.sum + e.sum := by
  induction x generalizing e with
  | nil => cases e with
    | nil => simp
    | cons b t => simp at h
  | cons a t ih =>
    cases e with
    | nil => simp at h
    | cons b u =>
      simp only [List.zipWith_cons_cons, List.sum_cons]
      rw [ih u (by simpa using h)]; ring

theorem map_sub_const_sum (l : List Rat) (a : Rat) :
    (l.map (fun c => c - a)).sum = l.sum - l.length * a := by
  induction l with
  | nil => simp
  | cons b t ih => simp only [List.map_cons, List.sum_cons, List.length_cons, ih]; push_cast; ring

theorem all_zero_of_nonneg_sum_zero (n : Nat) (l : List Rat) (hl : l.length = n)
    (hp : ∀ i, i < n → 0 ≤ l.getD i 0) (hs : l.sum = 0) : l = List.replicate n 0 := by
  have hsum : ∑ i ∈ Finset.range n, l.getD i 0 = 0 := by
    rw [← hl, ← sum_eq_range_getD]; exact hs
  have hz : ∀ i, i < n → l.getD i 0 = 0 := by
    intro i hi
    have := (Finset.sum_eq_zero_iff_of_nonneg
      (fun j hj => hp j (Finset.mem_range.mp hj))).mp hsum
    exact this i (Finset.mem_range.mpr hi)
  refine List.ext_getElem (by simp [hl]) ?_
  intro i h1 h2
  have hi : i < n := by omega
  have := hz i hi
  rw [getD_eq_getElem_of_lt l 0 i h1] at this
  simp [this]

theorem count_true_le_length (m : List Bool) : m.count true ≤ m.length :=
  List.count_le_length true m

theorem count_true_eq_sum (m : List Bool) :
    (m.count true : Rat) = ∑ i ∈ Finset.range m.length, (if m.getD i false then (1 : Rat) else 0) := by
  induction m with
  | nil => simp
  | cons b t ih =>
    rw [List.length_cons, Finset.sum_range_succ' (fun i => if (b :: t).getD i false then (1 : Rat) else 0)]
    simp only [List.getD_cons_succ, List.getD_cons_zero]
    cases b <;> simp [List.count_cons, ih] <;> push_cast <;> ring

theorem count_true_mono (m1 m2 : List Bool) (n : Nat) (h1 : m1.length = n) (h2 : m2.length = n)
    (hle : ∀ i, i < n → m1.getD i false = true → m2.getD i false = true)
    (hstrict : ∃ i, i < n ∧ m1.getD i false = false ∧ m2.getD i false = true) :
    m1.count true < m2.count true := by
  have key : (m1.count true : Rat) < (m2.count true : Rat) := by
    rw [count_true_eq_sum, count_true_eq_sum, h1, h2]
    obtain ⟨j, hj, hjf, hjt⟩ := hstrict
    refine Finset.sum_lt_sum (fun i hi => ?_) ⟨j, Finset.mem_range.mpr hj, ?_⟩
    · by_cases hb : m1.getD i false = true
      · rw [hb, hle i (Finset.mem_range.mp hi) hb]
      · simp only [Bool.not_eq_true] at hb
        rw [hb]
        have h0 : (if (false = true) then (1 : Rat) else 0) = 0 := by norm_num
        rw [h0]
        split <;> norm_num
    · rw [hjf, hjt]
      have h0 : (if (false = true) then (1 : Rat) else 0) = 0 := by norm_num
      have h1 : (if (true = true) then (1 : Rat) else 0) = 1 := by norm_num
      rw [h0, h1]; norm_num
  exact_mod_cast key

/-! Lemmas about the boolean-mask operations of the solver embedding. -/

theorem maskSelect_nil_mask (v : List Rat) : maskSelect v [] = [] := by
  cases v <;> rfl

theorem maskSelect_cons (a : Rat) (v : List Rat) (b : Bool) (m : List Bool) :
    maskSelect (a :: v) (b :: m) = if b then a :: maskSelect v m else maskSelect v m := by
  cases b <;> rfl

theorem maskSelect_all_true (v : List Rat) (n : Nat) (h : v.length = n) :
    maskSelect v (List.replicate n true) = v := by
  induction v generalizing n with
  | nil => simp [maskSelect]
  | cons a t ih =>
    cases n with
    | zero => simp at h
    | succ m =>
      rw [List.replicate_succ, maskSelect_cons]
      simp only [if_true]
      rw [ih m (by simpa using h)]

theorem maskSelect_all_false (v : List Rat) (n : Nat) :
    maskSelect v (List.replicate n false) = [] := by
  induction v generalizing n with
  | nil => simp [maskSelect]
  | cons a t ih =>
    cases n with
    | zero => rfl
    | succ m =>
      rw [List.replicate_succ, maskSelect_cons]
      simp only [if_neg (by simp : ¬ false = true)]
      exact ih m

theorem maskSelect_length (v : List Rat) (m : List Bool) (h : m.length = v.length) :
    (maskSelect v m).length = m.count true := by
  induction v generalizing m with
  | nil =>
    cases m with
    | nil => rfl
    | cons b t => simp at h
  | cons a t ih =>
    cases m with
    | nil => simp at h
    | cons b u =>
      rw [maskSelect_cons]
      cases b
      · simpa [List.count_cons] using ih u (by simpa using h)
      · simpa [List.count_cons] using ih u (by simpa using h)

theorem maskSelect_sum (v : List Rat) (m : List Bool) (h : m.length = v.length) :
    (maskSelect v m).sum =
      ∑ i ∈ Finset.range v.length, (if m.getD i false then v.getD i 0 else 0) := by
  induction v generalizing m with
  | nil => cases m <;> simp [maskSelect]
  | cons a t ih =>
    cases m with
    | nil => simp at h
    | cons b u =>
      rw [maskSelect_cons, List.length_cons,
        Finset.sum_range_succ' (fun i => if (b :: u).getD i false then (a :: t).getD i 0 else 0)]
      simp only [List.getD_cons_succ, List.getD_cons_zero]
      rw [← ih u (by simpa using h)]
      cases b
      · simp
      · simp [add_comm]

theorem maskAssignGo_all_false (v : List Rat) (n : Nat) (w : List Rat) :
    maskAssignGo v (List.replicate n false) w = v := by
  induction v generalizing n with
  | nil => rfl
  | cons a t ih =>
    cases n with
    | zero => rfl
    | succ m => rw [List.replicate_succ]; show a :: maskAssignGo t _ w = _; rw [ih]

theorem maskAssignGo_all_true (v w : List Rat) (h : w.length = v.length) :
    maskAssignGo v (List.replicate v.length true) w = w := by
  induction v generalizing w with
  | nil =>
    cases w with
    | nil => rfl
    | cons b u => simp at h
  | cons a t ih =>
    cases w with
    | nil => simp at h
    | cons b u =>
      rw [List.length_cons, List.replicate_succ]
      show b :: maskAssignGo t _ u = _
      rw [ih u (by simpa using h)]

/-- Pointwise blend: positions where the mask holds take the new value, the
rest keep the old one (proof-side normal form of a masked assignment whose
right side is computed from masked reads of full-length vectors). -/
def maskBlend : List Bool → List Rat → List Rat → List Rat
  | jb :: js, a :: at2, b :: bt => (if jb then a else b) :: maskBlend js at2 bt
  | _, _, _ => []

theorem maskBlend_length (j : List Bool) (a b : List Rat) (n : Nat)
    (hj : j.length = n) (ha : a.length = n) (hb : b.length = n) :
    (maskBlend j a b).length = n := by
  induction j generalizing a b n with
  | nil => cases a <;> cases b <;> simp_all [maskBlend]
  | cons jb js ih =>
    cases a with
    | nil => simp at ha hj; omega
    | cons a0 at2 =>
      cases b with
      | nil => simp at hb hj; omega
      | cons b0 bt =>
        cases n with
        | zero => simp at hj
        | succ m =>
          show (maskBlend (jb :: js) (a0 :: at2) (b0 :: bt)).length = m + 1
          rw [maskBlend]
          simp only [List.length_cons]
          rw [ih at2 bt m (by simpa using hj) (by simpa using ha) (by simpa using hb)]

theorem maskBlend_getD (j : List Bool) (a b : List Rat) (n : Nat)
    (hj : j.length = n) (ha : a.length = n) (hb : b.length = n) (i : Nat) (hi : i < n) :
    (maskBlend j a b).getD i 0 =
      if j.getD i false then a.getD i 0 else b.getD i 0 := by
  induction j generalizing a b n i with
  | nil => simp at hj; omega
  | cons jb js ih =>
    cases a with
    | nil => simp at ha hj; omega
    | cons a0 at2 =>
      cases b with
      | nil => simp at hb hj; omega
      | cons b0 bt =>
        cases n with
        | zero => omega
        | succ m =>
          rw [maskBlend]
          cases i with
          | zero => simp
          | succ i2 =>
            simp only [List.getD_cons_succ]
            exact ih at2 bt m (by simpa using hj) (by simpa using ha) (by simpa using hb)
              i2 (by omega)

theorem maskAssignGo_select2 (f : Rat → Rat → Rat) (j : List Bool) (v a b : List Rat)
    (hv : v.length = j.length) (ha : a.length = j.length) (hb : b.length = j.length) :
    maskAssignGo v j ((maskSelect a j).zipWith f (maskSelect b j)) =
      maskBlend j (a.zipWith f b) v := by
  induction j generalizing v a b with
  | nil =>
    cases v with
    | nil => cases a <;> cases b <;> simp_all [maskBlend, maskAssignGo]
    | cons v0 vt => simp at hv
  | cons jb js ih =>
    cases v with
    | nil => simp at hv
    | cons v0 vt =>
      cases a with
      | nil => simp at ha
      | cons a0 at2 =>
        cases b with
        | nil => simp at hb
        | cons b0 bt =>
          rw [maskSelect_cons, maskSelect_cons]
          cases jb
          · simp only [if_neg (by simp : ¬ false = true)]
            show v0 :: maskAssignGo vt js _ = _
            rw [ih vt at2 bt (by simpa using hv) (by simpa using ha) (by simpa using hb)]
            rfl
          · simp only [if_pos rfl]
            show f a0 b0 :: maskAssignGo vt js _ = _
            rw [ih vt at2 bt (by simpa using hv) (by simpa using ha) (by simpa using hb)]
            rfl

theorem zipWith_map_not (j : List Bool) (f : Bool → Bool → Bool) (n : Nat)
    (hj : j.length = n) :
    (List.replicate n true).zipWith f j = j.map (f true) := by
  induction j generalizing n with
  | nil => simp
  | cons jb js ih =>
    cases n with
    | zero => simp at hj
    | succ m =>
      rw [List.replicate_succ]
      simp only [List.zipWith_cons_cons, List.map_cons]
      rw [ih m (by simpa using hj)]

/-! Lemmas about the stable sort used by the buy selector. -/

theorem insertAscBy_perm {α : Type} (f : α → Rat) (a : α) (l : List α) :
    List.Perm (insertAscBy f a l) (a :: l) := by
  induction l with
  | nil => rfl
  | cons b t ih =>
    rw [insertAscBy]
    split
    · exact (ih.cons b).trans (List.Perm.swap a b t)
    · rfl

theorem sortAscBy_perm {α : Type} (f : α → Rat) (l : List α) :
    List.Perm (sortAscBy f l) l := by
  induction l with
  | nil => rfl
  | cons a t ih => exact (insertAscBy_perm f a (sortAscBy f t)).trans (ih.cons a)

theorem mem_sortAscBy {α : Type} (f : α → Rat) (l : List α) (x : α)
    (h : x ∈ sortAscBy f l) : x ∈ l := (sortAscBy_perm f l).mem_iff.mp h

/-- The head of the stable ascending sort is the first element of the input
attaining the minimal measure: it has a minimal measure and every element
before it in the input has a strictly larger measure. -/
theorem head_sortAscBy {α : Type} (f : α → Rat) (l : List α) (d : α) (hne : l ≠ []) :
    ∃ k, k < l.length ∧ (sortAscBy f l).head? = some (l.getD k d) ∧
      (∀ m, m < l.length → f (l.getD k d) ≤ f (l.getD m d)) ∧
      (∀ m, m < k → f (l.getD k d) < f (l.getD m d)) := by
  induction l with
  | nil => exact absurd rfl hne
  | cons a t ih =>
    by_cases ht : t = []
    · subst ht
      refine ⟨0, by simp, ?_, ?_, ?_⟩
      · rfl
      · intro m hm
        have hm0 : m = 0 := by simpa using hm
        subst hm0
        exact le_refl _
      · intro m hm; omega
    · obtain ⟨k2, hk2, hhead, hmin, hstrict⟩ := ih ht
      have hs : sortAscBy f (a :: t) = insertAscBy f a (sortAscBy f t) := rfl
      obtain ⟨s2, hs2⟩ : ∃ s2, sortAscBy f t = t.getD k2 d :: s2 := by
        cases hsort : sortAscBy f t with
        | nil => rw [hsort] at hhead; simp at hhead
        | cons b bt =>
          rw [hsort] at hhead
          simp only [List.head?_cons, Option.some.injEq] at hhead
          exact ⟨bt, by rw [hhead]⟩
      by_cases hba : f (t.getD k2 d) < f a
      · refine ⟨k2 + 1, by simpa using hk2, ?_, ?_, ?_⟩
        · rw [hs, hs2, insertAscBy, if_pos hba]
          simp [List.getD_cons_succ]
        · intro m hm
          cases m with
          | zero => simpa [List.getD_cons_succ] using le_of_lt hba
          | succ m2 => simpa [List.getD_cons_succ] using hmin m2 (by simpa using hm)
        · intro m hm
          cases m with
          | zero => simpa [List.getD_cons_succ] using hba
          | succ m2 => simpa [List.getD_cons_succ] using hstrict m2 (by omega)
      · refine ⟨0, by simp, ?_, ?_, ?_⟩
        · rw [hs, hs2, insertAscBy, if_neg hba]
          rfl
        · intro m hm
          cases m with
          | zero => exact le_refl _
          | succ m2 =>
            have h1 : f a ≤ f (t.getD k2 d) := not_lt.mp hba
            simpa [List.getD_cons_succ] using h1.trans (hmin m2 (by simpa using hm))
        · intro m hm; omega

/-! Lemmas about the gain-harvesting loop of the sell selector, and the
claims C2 and C3 it decides. -/

theorem takeSum_zero (gains : List Rat) : takeSum gains 0 = 0 := rfl

theorem gainLoop_run (gains : List Rat) (maxG : Rat) :
    ∀ (d k : Nat), k < gains.length →
      (k = 0 ∨ takeSum gains k < maxG) →
      gains.length - k ≤ d →
      ∃ m, gainLoop gains maxG d k = some m ∧ m ≤ gains.length ∧
        (m = 0 ∨ takeSum gains m < maxG) ∧
        (m < gains.length → maxG ≤ takeSum gains (m + 1)) := by
  intro d
  induction d with
  | zero => intro k hk _ hfuel; omega
  | succ d2 ih =>
    intro k hk hinv hfuel
    rw [gainLoop]
    by_cases hcond : takeSum gains (k + 1) < maxG
    · rw [if_pos hcond]
      by_cases hend : k + 1 = gains.length
      · rw [if_pos hend]
        exact ⟨k + 1, rfl, by omega, Or.inr hcond, by omega⟩
      · rw [if_neg hend]
        exact ih (k + 1) (by omega) (Or.inr hcond) (by omega)
    · rw [if_neg hcond]
      exact ⟨k, rfl, by omega, hinv, fun _ => not_lt.mp hcond⟩

/-- The behaviour of the gain-harvesting loop whenever it terminates (the
winning-lot list is non-empty, or MAX_GAIN_TO_SELL is non-positive): the
number m of lots it selects never makes the cumulative selected gain reach a
positive MAX_GAIN_TO_SELL, and when lots remain unselected, selecting one
more would reach it. -/
theorem gainLoop_cap (gains : List Rat) (maxG : Rat) (fuel : Nat)
    (hterm : gains ≠ [] ∨ maxG ≤ 0) (hfuel : gains.length + 1 ≤ fuel) :
    ∃ m, gainLoop gains maxG fuel 0 = some m ∧ m ≤ gains.length ∧
      (0 < maxG → takeSum gains m < maxG) ∧
      (m < gains.length → maxG ≤ takeSum gains (m + 1)) := by
  by_cases hne : gains = []
  · have hmg : maxG ≤ 0 := by
      cases hterm with
      | inl h => exact absurd hne h
      | inr h => exact h
    subst hne
    cases fuel with
    | zero => simp at hfuel
    | succ f2 =>
      rw [gainLoop]
      have hc : ¬ takeSum [] (0 + 1) < maxG := by
        rw [show takeSum [] (0 + 1) = 0 from rfl]
        exact not_lt.mpr hmg
      rw [if_neg hc]
      exact ⟨0, rfl, by simp, fun h => by rw [takeSum_zero]; exact h, by simp⟩
  · have hlen : 0 < gains.length := List.length_pos.mpr hne
    obtain ⟨m, hrun, hle, hinv, hnext⟩ :=
      gainLoop_run gains maxG fuel 0 hlen (Or.inl rfl) (by omega)
    refine ⟨m, hrun, hle, ?_, hnext⟩
    intro hpos
    cases hinv with
    | inl h => rw [h, takeSum_zero]; exact hpos
    | inr h => exact h

theorem gainLoop_empty_diverges (maxG : Rat) (hpos : 0 < maxG) :
    ∀ (fuel k : Nat), gainLoop [] maxG fuel k = none := by
  intro fuel
  induction fuel with
  | zero => intro k; rfl
  | succ f2 ih =>
    intro k
    rw [gainLoop]
    have hc : takeSum [] (k + 1) < maxG := by
      rw [show takeSum [] (k + 1) = 0 from rfl]; exact hpos
    rw [if_pos hc, if_neg (by simp : ¬ k + 1 = List.length ([] : List Rat))]
    exact ih (k + 1)

/-! Demonstration values used by concrete runs of the embedded code. -/

/-- Demonstration portfolio with two single-security classes A and B. -/
def demoPortfolio : TargetPortfolio :=
  { validated := true,
    assetclasses := [("A", ⟨50, "A", ["AAA"], [some 1]⟩),
                     ("B", ⟨50, "B", ["BBB"], [some 1]⟩)] }

/-- The demonstration portfolio before validation. -/
def demoPre : TargetPortfolio :=
  { validated := false, assetclasses := demoPortfolio.assetclasses }

/-- A portfolio whose targets sum to 50, not 100. -/
def demoBadSum : TargetPortfolio :=
  { validated := false, assetclasses := [("A", ⟨50, "A", ["AAA"], [some 1]⟩)] }

/-- The demonstration portfolio is what the builder chain produces: two
add_assetclass calls followed by validate. -/
theorem demoPortfolio_built :
    (do
      let p1 ← TargetPortfolio.empty.addAssetclass 50 "A" ["AAA"] [some 1]
      let p2 ← p1.addAssetclass 50 "B" ["BBB"] [some 1]
      p2.validate : Except Err TargetPortfolio) = .ok demoPortfolio := by
  with_unfolding_all decide

/-- C2, counterexample.  The claim says the lots selected for gain
harvesting have cumulative gain at least MAX_GAIN_TO_SELL unless every
winning lot was selected.  On a security holding a single winning lot of
gain 10 with MAX_GAIN_TO_SELL = 5, the code selects zero lots: the
cumulative selected gain 0 undershoots 5 although the winning lots are not
exhausted, because the loop guard looks at the sum including the next lot
and the slice sold stops one lot short of the guard. -/
theorem c2_counterexample :
    gainHarvestCount [⟨7, "XYZ", 3, 10, 40⟩] "XYZ" 5 1000 = some 0 ∧
    (gainingLots [⟨7, "XYZ", 3, 10, 40⟩] "XYZ").length = 1 ∧
    ¬ (5 : Rat) ≤ takeSum ((gainingLots [⟨7, "XYZ", 3, 10, 40⟩] "XYZ").map (fun l => l.gain)) 0 := by
  with_unfolding_all decide

/-- C2, amended.  Whenever the gain-harvesting loop terminates (the security
has at least one winning lot, or MAX_GAIN_TO_SELL is non-positive), the
selected lots are an initial segment of the winning lots in ascending order
of gain whose cumulative gain stays strictly below a positive
MAX_GAIN_TO_SELL; the selection stops one lot before reaching the threshold:
when winning lots remain unselected, selecting one more lot would make the
cumulative gain reach MAX_GAIN_TO_SELL.  MAX_GAIN_TO_SELL acts as a strict
cap on realized gains, not as a target to reach. -/
theorem c2_gain_harvest_cap (lots : List Lot) (symbol : String) (maxGain : Rat)
    (fuel : Nat) (hterm : gainingLots lots symbol ≠ [] ∨ maxGain ≤ 0)
    (hfuel : (gainingLots lots symbol).length + 1 ≤ fuel) :
    ∃ m, gainHarvestCount lots symbol maxGain fuel = some m ∧
      m ≤ (gainingLots lots symbol).length ∧
      (0 < maxGain →
        takeSum ((gainingLots lots symbol).map (fun l => l.gain)) m < maxGain) ∧
      (m < (gainingLots lots symbol).length →
        maxGain ≤ takeSum ((gainingLots lots symbol).map (fun l => l.gain)) (m + 1)) := by
  have hlen : ((gainingLots lots symbol).map (fun l => l.gain)).length =
      (gainingLots lots symbol).length := List.length_map ..
  have hterm2 : (gainingLots lots symbol).map (fun l => l.gain) ≠ [] ∨ maxGain ≤ 0 := by
    cases hterm with
    | inl h => exact Or.inl (by simpa using h)
    | inr h => exact Or.inr h
  obtain ⟨m, h1, h2, h3, h4⟩ :=
    gainLoop_cap ((gainingLots lots symbol).map (fun l => l.gain)) maxGain fuel hterm2
      (by rw [hlen]; exact hfuel)
  exact ⟨m, h1, by rwa [hlen] at h2, h3, by rwa [hlen] at h4⟩

/-- C2, witness: a security with winning lots of gains 2 and 10 and
MAX_GAIN_TO_SELL = 5 selects exactly the first lot (cumulative gain 2 < 5,
and including the next lot would reach 12 ≥ 5). -/
theorem c2_gain_harvest_cap_witness :
    (gainingLots [⟨1, "S", 1, 2, 10⟩, ⟨2, "S", 1, 10, 30⟩] "S" ≠ [] ∨ (5 : Rat) ≤ 0) ∧
    ((gainingLots [⟨1, "S", 1, 2, 10⟩, ⟨2, "S", 1, 10, 30⟩] "S").length + 1 ≤ 10) ∧
    ∃ m, gainHarvestCount [⟨1, "S", 1, 2, 10⟩, ⟨2, "S", 1, 10, 30⟩] "S" 5 10 = some m ∧
      m ≤ (gainingLots [⟨1, "S", 1, 2, 10⟩, ⟨2, "S", 1, 10, 30⟩] "S").length ∧
      (0 < (5 : Rat) →
        takeSum ((gainingLots [⟨1, "S", 1, 2, 10⟩, ⟨2, "S", 1, 10, 30⟩] "S").map
          (fun l => l.gain)) m < 5) ∧
      (m < (gainingLots [⟨1, "S", 1, 2, 10⟩, ⟨2, "S", 1, 10, 30⟩] "S").length →
        (5 : Rat) ≤ takeSum ((gainingLots [⟨1, "S", 1, 2, 10⟩, ⟨2, "S", 1, 10, 30⟩] "S").map
          (fun l => l.gain)) (m + 1)) :=
  ⟨Or.inl (by with_unfolding_all decide), by with_unfolding_all decide,
    c2_gain_harvest_cap [⟨1, "S", 1, 2, 10⟩, ⟨2, "S", 1, 10, 30⟩] "S" 5 10
      (Or.inl (by with_unfolding_all decide)) (by with_unfolding_all decide)⟩

/-- C3.  The claim says the gain-harvesting loop performs at most as many
iterations as the security has winning lots, including zero winning lots.
On a security whose only lot is a losing lot (so it has zero winning lots)
and MAX_GAIN_TO_SELL = 1, the source loop never terminates: the guard
compares the empty slice sum 0 < 1 forever and the exhaustion break tests
lots_to_sell == 0 only after incrementing lots_to_sell to at least 1.  In
the fuel model, the loop is still running after every fuel bound. -/
theorem c3_gain_loop_divergence :
    ∀ fuel : Nat, gainHarvestCount [⟨1, "XYZ", 10, -5, 95⟩] "XYZ" 1 fuel = none := by
  intro fuel
  have hg : gainingLots [⟨1, "XYZ", 10, -5, 95⟩] "XYZ" = [] := by with_unfolding_all decide
  show gainLoop ((gainingLots [⟨1, "XYZ", 10, -5, 95⟩] "XYZ").map (fun l => l.gain)) 1 fuel 0 = none
  rw [hg]
  exact gainLoop_empty_diverges 1 (by norm_num) fuel 0

/-! Lemmas about the duplicate-security walk of validate, and claim C5. -/

/-- No security belongs to two asset classes of the portfolio. -/
def NoDupAcross (p : TargetPortfolio) : Prop :=
  List.Pairwise
    (fun c d => ∀ s ∈ c.2.securitiesAt none, s ∉ d.2.securitiesAt none)
    p.assetclasses

theorem dupCheck_ok_or_type (seen : List String) (cs : List (String × TargetAssetclass)) :
    dupCheck seen cs = .ok () ∨ dupCheck seen cs = .error .typeError := by
  induction cs generalizing seen with
  | nil => exact Or.inl rfl
  | cons c rest ih =>
    obtain ⟨nm, a⟩ := c
    rw [dupCheck]
    split
    · exact Or.inr rfl
    · exact ih _

theorem dupCheck_ok_disjoint (seen : List String) (cs : List (String × TargetAssetclass))
    (u : Unit) (h : dupCheck seen cs = .ok u) :
    ∀ c ∈ cs, ∀ s ∈ c.2.securitiesAt none, s ∉ seen := by
  induction cs generalizing seen with
  | nil => intro c hc; simp at hc
  | cons c0 rest ih =>
    obtain ⟨nm, a⟩ := c0
    rw [dupCheck] at h
    by_cases hany : (a.securitiesAt none).any (fun s => decide (s ∈ seen))
    · rw [if_pos hany] at h; cases h
    · rw [if_neg hany] at h
      intro c hc s hs
      have hnot : ∀ s2 ∈ a.securitiesAt none, s2 ∉ seen := by
        intro s2 hs2 hmem
        exact hany (List.any_eq_true.mpr ⟨s2, hs2, by simpa using hmem⟩)
      rcases List.mem_cons.mp hc with hhead | htail
      · subst hhead; exact hnot s hs
      · intro hmem
        exact (ih _ h c htail s hs) (List.mem_append.mpr (Or.inl hmem))

theorem dupCheck_ok_pairwise (seen : List String) (cs : List (String × TargetAssetclass))
    (u : Unit) (h : dupCheck seen cs = .ok u) :
    List.Pairwise
      (fun c d => ∀ s ∈ c.2.securitiesAt none, s ∉ d.2.securitiesAt none) cs := by
  induction cs generalizing seen with
  | nil => exact List.Pairwise.nil
  | cons c0 rest ih =>
    obtain ⟨nm, a⟩ := c0
    rw [dupCheck] at h
    by_cases hany : (a.securitiesAt none).any (fun s => decide (s ∈ seen))
    · rw [if_pos hany] at h; cases h
    · rw [if_neg hany] at h
      refine List.Pairwise.cons ?_ (ih _ h)
      intro d hd s hs hsd
      exact (dupCheck_ok_disjoint _ rest u h d hd s hsd)
        (List.mem_append.mpr (Or.inr hs))

/-- C5, amended.  validate fails with the assertion error when the targets
do not sum to 100, and with the TypeError of the raised string when a
security belongs to two classes; but validate is not once-only: a successful
validate may be repeated and returns the same validated portfolio unchanged.
What one successful validate does forbid is adding further asset classes. -/
theorem c5_validate (p q : TargetPortfolio) :
    ((p.assetclasses.map (fun c => c.2.target)).sum ≠ 100 →
      p.validate = .error .assertionFailed) ∧
    ((p.assetclasses.map (fun c => c.2.target)).sum = 100 → ¬ NoDupAcross p →
      p.validate = .error .typeError) ∧
    (p.validate = .ok q → q.validate = .ok q) ∧
    (q.validated = true → ∀ (t : Rat) (nm : String) (scs : List String)
      (bds : List (Option Rat)), q.addAssetclass t nm scs bds = .error .assertionFailed) := by
  refine ⟨?_, ?_, ?_, ?_⟩
  · intro hsum
    rw [TargetPortfolio.validate, if_pos hsum]
  · intro hsum hdup
    rw [TargetPortfolio.validate, if_neg (by rw [hsum]; exact fun hc => hc rfl)]
    cases hdc : dupCheck [] p.assetclasses with
    | ok u => exact absurd (dupCheck_ok_pairwise [] p.assetclasses u hdc) hdup
    | error e =>
      cases dupCheck_ok_or_type [] p.assetclasses with
      | inl h => rw [h] at hdc; cases hdc
      | inr h => rw [h] at hdc; cases hdc; rfl
  · intro hok
    rw [TargetPortfolio.validate] at hok
    by_cases hsum : (p.assetclasses.map (fun c => c.2.target)).sum = 100
    · rw [if_neg (by rw [hsum]; exact fun hc => hc rfl)] at hok
      cases hdc : dupCheck [] p.assetclasses with
      | error e => rw [hdc] at hok; cases hok
      | ok u =>
        rw [hdc] at hok
        have hq : q = { p with validated := true } := by
          cases hok; rfl
        subst hq
        rw [TargetPortfolio.validate]
        simp only
        rw [if_neg (by rw [hsum]; exact fun hc => hc rfl), hdc]
    · rw [if_pos hsum] at hok; cases hok
  · intro hval t nm scs bds
    rw [TargetPortfolio.addAssetclass, if_pos hval]

/-- C5, counterexample.  The claim says a second call to validate is
disallowed after one successful call.  On the two-class demonstration
portfolio, validating and then validating again succeeds, returning the same
validated portfolio: the source never records that validate already ran and
simply re-runs the (still passing) checks. -/
theorem c5_counterexample :
    (do
      let p1 ← TargetPortfolio.empty.addAssetclass 50 "A" ["AAA"] [some 1]
      let p2 ← p1.addAssetclass 50 "B" ["BBB"] [some 1]
      let p3 ← p2.validate
      p3.validate : Except Err TargetPortfolio) = .ok demoPortfolio ∧
    demoPortfolio.validate = .ok demoPortfolio := by
  with_unfolding_all decide

/-- C5, witness: the amended theorem applied to a portfolio whose targets
sum to 50 (validate fails), to the validated demonstration portfolio (a
repeated validate succeeds unchanged), and to add_assetclass after
validation (it fails). -/
theorem c5_validate_witness :
    demoBadSum.validate = .error .assertionFailed ∧
    demoPortfolio.validate = .ok demoPortfolio ∧
    demoPortfolio.addAssetclass 10 "C" ["CCC"] [some 1] = .error .assertionFailed := by
  refine ⟨(c5_validate demoBadSum demoPortfolio).1 (by with_unfolding_all decide), ?_, ?_⟩
  · have hpre : demoPre.validate = .ok demoPortfolio := by with_unfolding_all decide
    exact (c5_validate demoPre demoPortfolio).2.2.1 hpre
  · exact (c5_validate demoBadSum demoPortfolio).2.2.2 (by decide) 10 "C" ["CCC"] [some 1]

/-! Lemmas about the tier loop of the buy selector. -/

theorem head?_mem {α : Type} (l : List α) (o : α) (h : l.head? = some o) : o ∈ l := by
  cases l with
  | nil => cases h
  | cons a t =>
    simp only [List.head?_cons, Option.some.injEq] at h
    rw [← h]
    exact List.mem_cons_self a t

/-- Every candidate pair of a badness tier consists of a security of that
tier that was not recently sold. -/
theorem buyOptionsAt_mem (a : TargetAssetclass) (tier : Rat) (sold bought : List String)
    (lotsLoss : List (String × Rat)) (s : String) (v : Rat)
    (h : (s, v) ∈ buyOptionsAt a tier sold bought lotsLoss) :
    s ∈ a.securitiesAt (some tier) ∧ s ∉ sold := by
  obtain ⟨s0, hs0, heq⟩ := List.mem_filterMap.mp h
  by_cases hs : s0 ∈ sold
  · rw [if_pos hs] at heq; cases heq
  · rw [if_neg hs] at heq
    injection heq with h2
    have h3 : s0 = s := congrArg Prod.fst h2
    subst h3
    exact ⟨hs0, hs⟩

/-- Whatever the fuel, a successful tier loop returns the head of the
stably sorted candidate list of some tier, with its absolute loss within
MAX_LOSS_TO_FORGO, and records that tier as the badness. -/
theorem selectBuyAux_pick (a : TargetAssetclass) (sold bought : List String)
    (lotsLoss : List (String × Rat)) (maxLoss : Rat) :
    ∀ (fuel : Nat) (tier : Rat) (r : BuyRec),
      selectBuyAux a sold bought lotsLoss maxLoss fuel tier = some r →
      ∃ (t : Rat) (o : String × Rat),
        r = ⟨some o.1, some t⟩ ∧
        (sortAscBy (fun p => -p.2) (buyOptionsAt a t sold bought lotsLoss)).head? = some o ∧
        |o.2| ≤ maxLoss := by
  intro fuel
  induction fuel with
  | zero => intro tier r h; cases h
  | succ f2 ih =>
    intro tier r h
    rw [selectBuyAux] at h
    by_cases hemp : a.securitiesAt (some tier) = []
    · rw [if_pos hemp] at h; cases h
    · rw [if_neg hemp] at h
      cases hsort : sortAscBy (fun p => -p.2) (buyOptionsAt a tier sold bought lotsLoss) with
      | nil =>
        rw [hsort] at h
        exact ih (tier + 1) r h
      | cons o rest =>
        rw [hsort] at h
        have h2 : (if |o.2| ≤ maxLoss then
            some ({ security := some o.1, badness := some tier } : BuyRec)
          else selectBuyAux a sold bought lotsLoss maxLoss f2 (tier + 1)) = some r := h
        by_cases habs : |o.2| ≤ maxLoss
        · rw [if_pos habs] at h2
          injection h2 with h3
          exact ⟨tier, o, h3.symm, by rw [hsort]; rfl, habs⟩
        · rw [if_neg habs] at h2
          exact ih (tier + 1) r h2

/-- The security a successful tier loop returns was not recently sold. -/
theorem selectBuyAux_not_sold (a : TargetAssetclass) (sold bought : List String)
    (lotsLoss : List (String × Rat)) (maxLoss : Rat) (fuel : Nat) (tier : Rat)
    (r : BuyRec) (s : String)
    (h : selectBuyAux a sold bought lotsLoss maxLoss fuel tier = some r)
    (hs : r.security = some s) : s ∉ sold := by
  obtain ⟨t, o, hr, hhead, _⟩ := selectBuyAux_pick a sold bought lotsLoss maxLoss fuel tier r h
  have hmem : o ∈ buyOptionsAt a t sold bought lotsLoss :=
    mem_sortAscBy _ _ o (head?_mem _ o hhead)
  have hss : s = o.1 := by
    rw [hr] at hs
    injection hs with h2
    exact h2.symm
  rw [hss]
  exact (buyOptionsAt_mem a t sold bought lotsLoss o.1 o.2 hmem).2

/-- Every entry of a successful _identify_buys walk comes either from the
forced buys verbatim or from the tier loop of its class. -/
theorem identifyBuysGo_mem (forced : List (String × BuyRec)) (sold bought : List String)
    (lotsLoss : List (String × Rat)) (maxLoss : Rat) :
    ∀ (cs : List (String × TargetAssetclass)) (res : List (String × BuyRec)),
      identifyBuysGo forced sold bought lotsLoss maxLoss cs = .ok res →
      ∀ pr ∈ res, ∃ a, (pr.1, a) ∈ cs ∧
        (forced.lookup pr.1 = some pr.2 ∨
          (forced.lookup pr.1 = none ∧
            selectBuy a sold bought lotsLoss maxLoss = some pr.2)) := by
  intro cs
  induction cs with
  | nil =>
    intro res h pr hpr
    injection h with h2
    rw [← h2] at hpr
    simp at hpr
  | cons c0 rest ih =>
    obtain ⟨nm, a0⟩ := c0
    intro res h pr hpr
    rw [identifyBuysGo] at h
    cases hl : forced.lookup nm with
    | some r0 =>
      simp only [hl] at h
      cases hrec : identifyBuysGo forced sold bought lotsLoss maxLoss rest with
      | error e => rw [hrec] at h; cases h
      | ok res0 =>
        rw [hrec] at h
        simp only [Except.map] at h
        injection h with h2
        rw [← h2] at hpr
        rcases List.mem_cons.mp hpr with hhead | htail
        · subst hhead
          exact ⟨a0, List.mem_cons_self _ _, Or.inl hl⟩
        · obtain ⟨a, hmem, hdisj⟩ := ih res0 hrec pr htail
          exact ⟨a, List.mem_cons_of_mem _ hmem, hdisj⟩
    | none =>
      simp only [hl] at h
      cases hsel : selectBuy a0 sold bought lotsLoss maxLoss with
      | none => rw [hsel] at h; cases h
      | some r0 =>
        rw [hsel] at h
        cases hrec : identifyBuysGo forced sold bought lotsLoss maxLoss rest with
        | error e => rw [hrec] at h; cases h
        | ok res0 =>
          rw [hrec] at h
          simp only [Except.map] at h
          injection h with h2
          rw [← h2] at hpr
          rcases List.mem_cons.mp hpr with hhead | htail
          · subst hhead
            exact ⟨a0, List.mem_cons_self _ _, Or.inr ⟨hl, hsel⟩⟩
          · obtain ⟨a, hmem, hdisj⟩ := ih res0 hrec pr htail
            exact ⟨a, List.mem_cons_of_mem _ hmem, hdisj⟩

/-- C6, counterexample.  The claim says a security sold within the lookback
window is never chosen as the buy security of any asset class in any run.
In a run whose forced buys pin AAA for class A while AAA is in the sold set,
the full _identify_buys walk (after the forced buys passed the __init__
validation) chooses AAA for class A: the forced-buy path bypasses the
wash-sale filter, so the claim fails on runs with forced buys. -/
theorem c6_counterexample :
    identifyBuys demoPortfolio [("A", { security := some "AAA", badness := some 1 })]
      ["AAA"] [] [] 0 =
      .ok [("A", { security := some "AAA", badness := some 1 }),
           ("B", { security := some "BBB", badness := some 1 })] ∧
    "AAA" ∈ ["AAA"] ∧
    processForcedBuys demoPortfolio [("A", some "AAA")] =
      .ok [("A", { security := some "AAA", badness := some 1 })] := by
  with_unfolding_all decide

/-- C6, amended.  In every run, for every asset class without a forced buy,
the security _identify_buys chooses for that class is never one of the
recently sold securities: the automatic tier loop filters RecentTrades.sold
out of every candidate list.  A class with a forced buy takes the pinned
security verbatim, bypassing this filter. -/
theorem c6_auto_buys_avoid_recent_sold (p : TargetPortfolio)
    (forced : List (String × BuyRec)) (sold bought : List String)
    (lotsLoss : List (String × Rat)) (maxLoss : Rat)
    (buys : List (String × BuyRec)) (aName : String) (r : BuyRec) (s : String)
    (hrun : identifyBuys p forced sold bought lotsLoss maxLoss = .ok buys)
    (hmem : (aName, r) ∈ buys) (hnf : forced.lookup aName = none)
    (hs : r.security = some s) : s ∉ sold := by
  rw [identifyBuys] at hrun
  by_cases hval : p.validated
  · rw [if_neg (by rw [hval]; exact fun hc => hc rfl)] at hrun
    obtain ⟨a, _, hdisj⟩ :=
      identifyBuysGo_mem forced sold bought lotsLoss maxLoss p.assetclasses buys hrun
        (aName, r) hmem
    rcases hdisj with hforced | ⟨_, hsel⟩
    · rw [hnf] at hforced; cases hforced
    · exact selectBuyAux_not_sold a sold bought lotsLoss maxLoss (tierFuel a) 1 r s hsel hs
  · rw [if_pos (by simpa using hval)] at hrun
    cases hrun

/-- C6, witness: in a run over the demonstration portfolio with AAA recently
sold, no forced buys and zero loss tolerance, the security chosen for class
A is not in the sold list (the tier loop falls back to nothing being
filtered for class B; class A picks nothing sold either). -/
theorem c6_auto_buys_avoid_recent_sold_witness :
    identifyBuys demoPortfolio [] ["CCC"] [] [] 0 =
      .ok [("A", { security := some "AAA", badness := some 1 }),
           ("B", { security := some "BBB", badness := some 1 })] ∧
    ("A", ({ security := some "AAA", badness := some 1 } : BuyRec)) ∈
      [("A", ({ security := some "AAA", badness := some 1 } : BuyRec)),
       ("B", ({ security := some "BBB", badness := some 1 } : BuyRec))] ∧
    "AAA" ∉ ["CCC"] :=
  have hrun : identifyBuys demoPortfolio [] ["CCC"] [] [] 0 =
      .ok [("A", { security := some "AAA", badness := some 1 }),
           ("B", { security := some "BBB", badness := some 1 })] := by
    with_unfolding_all decide
  ⟨hrun, by with_unfolding_all decide,
    c6_auto_buys_avoid_recent_sold demoPortfolio [] ["CCC"] [] [] 0
      [("A", { security := some "AAA", badness := some 1 }),
       ("B", { security := some "BBB", badness := some 1 })]
      "A" { security := some "AAA", badness := some 1 } "AAA"
      hrun (by with_unfolding_all decide) (by with_unfolding_all decide) rfl⟩

/-- C7.  For every class selected by the automatic tier loop, the chosen
security is the first candidate of the selected badness tier attaining the
maximal loss value (losses are non-positive, so maximal means closest to
zero): every candidate of the tier has a loss at most the chosen one, and
every candidate listed before the chosen one in declared order has a
strictly smaller loss.  When two or more candidates of the tier share the
maximal loss value, the one first in declared order is selected, because the
sort of Python sorted is stable. -/
theorem c7_tie_break (a : TargetAssetclass) (sold bought : List String)
    (lotsLoss : List (String × Rat)) (maxLoss : Rat) (fuel : Nat) (tier : Rat)
    (r : BuyRec) (s : String) (t : Rat)
    (hsel : selectBuyAux a sold bought lotsLoss maxLoss fuel tier = some r)
    (hs : r.security = some s) (ht : r.badness = some t) :
    ∃ k, k < (buyOptionsAt a t sold bought lotsLoss).length ∧
      s = ((buyOptionsAt a t sold bought lotsLoss).getD k ("", 0)).1 ∧
      (∀ m, m < (buyOptionsAt a t sold bought lotsLoss).length →
        ((buyOptionsAt a t sold bought lotsLoss).getD m ("", 0)).2 ≤
          ((buyOptionsAt a t sold bought lotsLoss).getD k ("", 0)).2) ∧
      (∀ m, m < k →
        ((buyOptionsAt a t sold bought lotsLoss).getD m ("", 0)).2 <
          ((buyOptionsAt a t sold bought lotsLoss).getD k ("", 0)).2) := by
  obtain ⟨t2, o, hr, hhead, _⟩ := selectBuyAux_pick a sold bought lotsLoss maxLoss fuel tier r hsel
  have hts : t2 = t := by
    rw [hr] at ht
    injection ht
  subst hts
  have hss : s = o.1 := by
    rw [hr] at hs
    injection hs with h2
    exact h2.symm
  have hne : buyOptionsAt a t2 sold bought lotsLoss ≠ [] := by
    intro hnil
    rw [hnil] at hhead
    cases hhead
  obtain ⟨k, hk, hhead2, hmin, hstrict⟩ :=
    head_sortAscBy (fun p => -p.2) (buyOptionsAt a t2 sold bought lotsLoss) ("", 0) hne
  have ho : o = (buyOptionsAt a t2 sold bought lotsLoss).getD k ("", 0) := by
    rw [hhead] at hhead2
    exact Option.some.inj hhead2
  refine ⟨k, hk, by rw [hss, ho], ?_, ?_⟩
  · intro m hm
    have := hmin m hm
    simpa using this
  · intro m hm
    have := hstrict m hm
    simpa using this

/-- C7, witness: in a class declaring S1 and S2 at badness 1 with equal
losses of -5 within the tolerance 10, the tier loop picks S1, the first in
declared order, and the theorem places it first among the maximal-loss
candidates. -/
theorem c7_tie_break_witness :
    selectBuyAux ⟨100, "X", ["S1", "S2", "S3"], [some 1, some 1, some 2]⟩
      [] [] [("S1", -5), ("S2", -5)] 10 (tierFuel ⟨100, "X", ["S1", "S2", "S3"],
        [some 1, some 1, some 2]⟩) 1 =
      some { security := some "S1", badness := some 1 } ∧
    ∃ k, k < (buyOptionsAt ⟨100, "X", ["S1", "S2", "S3"], [some 1, some 1, some 2]⟩
        1 [] [] [("S1", -5), ("S2", -5)]).length ∧
      "S1" = ((buyOptionsAt ⟨100, "X", ["S1", "S2", "S3"], [some 1, some 1, some 2]⟩
        1 [] [] [("S1", -5), ("S2", -5)]).getD k ("", 0)).1 ∧
      (∀ m, m < (buyOptionsAt ⟨100, "X", ["S1", "S2", "S3"], [some 1, some 1, some 2]⟩
          1 [] [] [("S1", -5), ("S2", -5)]).length →
        ((buyOptionsAt ⟨100, "X", ["S1", "S2", "S3"], [some 1, some 1, some 2]⟩
          1 [] [] [("S1", -5), ("S2", -5)]).getD m ("", 0)).2 ≤
          ((buyOptionsAt ⟨100, "X", ["S1", "S2", "S3"], [some 1, some 1, some 2]⟩
            1 [] [] [("S1", -5), ("S2", -5)]).getD k ("", 0)).2) ∧
      (∀ m, m < k →
        ((buyOptionsAt ⟨100, "X", ["S1", "S2", "S3"], [some 1, some 1, some 2]⟩
          1 [] [] [("S1", -5), ("S2", -5)]).getD m ("", 0)).2 <
          ((buyOptionsAt ⟨100, "X", ["S1", "S2", "S3"], [some 1, some 1, some 2]⟩
            1 [] [] [("S1", -5), ("S2", -5)]).getD k ("", 0)).2) :=
  have hsel : selectBuyAux ⟨100, "X", ["S1", "S2", "S3"], [some 1, some 1, some 2]⟩
      [] [] [("S1", -5), ("S2", -5)] 10 (tierFuel ⟨100, "X", ["S1", "S2", "S3"],
        [some 1, some 1, some 2]⟩) 1 =
      some { security := some "S1", badness := some 1 } := by
    with_unfolding_all decide
  ⟨hsel, c7_tie_break ⟨100, "X", ["S1", "S2", "S3"], [some 1, some 1, some 2]⟩
    [] [] [("S1", -5), ("S2", -5)] 10 _ 1 _ "S1" 1 hsel rfl rfl⟩

/-! Claim C9: forced buys are used verbatim and validated only for class
membership. -/

/-- The entry a successful _identify_buys walk stores for a class that has a
forced buy is that forced record, whatever the sold, bought, loss and
tolerance inputs are. -/
theorem identifyBuysGo_lookup (forced : List (String × BuyRec)) (sold bought : List String)
    (lotsLoss : List (String × Rat)) (maxLoss : Rat) :
    ∀ (cs : List (String × TargetAssetclass)) (res : List (String × BuyRec))
      (aName : String) (r : BuyRec),
      identifyBuysGo forced sold bought lotsLoss maxLoss cs = .ok res →
      (cs.lookup aName).isSome = true →
      forced.lookup aName = some r →
      res.lookup aName = some r := by
  intro cs
  induction cs with
  | nil =>
    intro res aName r h hcs _
    simp [List.lookup] at hcs
  | cons c0 rest ih =>
    obtain ⟨nm, a0⟩ := c0
    intro res aName r h hcs hf
    rw [identifyBuysGo] at h
    by_cases haeq : aName = nm
    · subst haeq
      rw [hf] at h
      cases hrec : identifyBuysGo forced sold bought lotsLoss maxLoss rest with
      | error e => rw [hrec] at h; cases h
      | ok res0 =>
        rw [hrec] at h
        simp only [Except.map] at h
        injection h with h2
        rw [← h2, List.lookup]
        simp
    · cases hl : forced.lookup nm with
      | some r0 =>
        rw [hl] at h
        cases hrec : identifyBuysGo forced sold bought lotsLoss maxLoss rest with
        | error e => rw [hrec] at h; cases h
        | ok res0 =>
          rw [hrec] at h
          simp only [Except.map] at h
          injection h with h2
          rw [← h2, List.lookup]
          have hbeq : (aName == nm) = false := by
            simpa using haeq
          rw [hbeq]
          refine ih res0 aName r hrec ?_ hf
          rw [List.lookup] at hcs
          rw [hbeq] at hcs
          exact hcs
      | none =>
        rw [hl] at h
        cases hsel : selectBuy a0 sold bought lotsLoss maxLoss with
        | none => rw [hsel] at h; cases h
        | some r0 =>
          rw [hsel] at h
          cases hrec : identifyBuysGo forced sold bought lotsLoss maxLoss rest with
          | error e => rw [hrec] at h; cases h
          | ok res0 =>
            rw [hrec] at h
            simp only [Except.map] at h
            injection h with h2
            rw [← h2, List.lookup]
            have hbeq : (aName == nm) = false := by
              simpa using haeq
            rw [hbeq]
            refine ih res0 aName r hrec ?_ hf
            rw [List.lookup] at hcs
            rw [hbeq] at hcs
            exact hcs

/-- C9.  A forced buy pinning security s for asset class a is validated in
Rebalancer.__init__ only by class membership: when find_security places s in
class a it is accepted with the badness find_security reports, and when
find_security places s in a different class the whole run fails; the
processing never consults RecentTrades or any loss value (they are not even
inputs of it).  The buy selector then stores the forced record verbatim for
that class, whatever the sold and bought sets, the losses and
MAX_LOSS_TO_FORGO are, so a pinned security is chosen even when it was sold
inside the lookback window or its forgone loss exceeds the tolerance. -/
theorem c9_forced_buy_bypass (p : TargetPortfolio) (a s : String) (bad : Option Rat)
    (cls : TargetAssetclass) (forced : List (String × BuyRec)) (r : BuyRec)
    (sold bought : List String) (lotsLoss : List (String × Rat)) (maxLoss : Rat)
    (buys : List (String × BuyRec))
    (hval : p.validated = true)
    (hclass : p.assetclasses.lookup a = some cls) :
    (p.findSecurity s = .ok (a, bad) →
      processForcedBuys p [(a, some s)] =
        .ok [(a, { security := some s, badness := bad })]) ∧
    (∀ (c2 : String) (b2 : Option Rat), p.findSecurity s = .ok (c2, b2) → c2 ≠ a →
      processForcedBuys p [(a, some s)] = .error .rebalancerError) ∧
    (forced.lookup a = some r →
      identifyBuys p forced sold bought lotsLoss maxLoss = .ok buys →
      buys.lookup a = some r) := by
  have hnv : ¬ ¬ p.validated = true := fun hc => hc hval
  have hnn : ¬ (p.assetclasses.lookup a).isNone = true := by
    rw [hclass]
    simp
  refine ⟨?_, ?_, ?_⟩
  · intro hfind
    rw [processForcedBuys, if_neg hnv, if_neg hnn, hfind]
    show (if (a, bad).1 ≠ a then Except.error Err.rebalancerError
      else Except.map (fun r2 => (a, { security := some s, badness := (a, bad).2 }) :: r2)
        (processForcedBuys p [])) = _
    rw [if_neg (by simp : ¬ (a, bad).1 ≠ a)]
    rfl
  · intro c2 b2 hfind hne
    rw [processForcedBuys, if_neg hnv, if_neg hnn, hfind]
    show (if (c2, b2).1 ≠ a then Except.error Err.rebalancerError
      else Except.map (fun r2 => (a, { security := some s, badness := (c2, b2).2 }) :: r2)
        (processForcedBuys p [])) = _
    rw [if_pos (show (c2, b2).1 ≠ a from hne)]
  · intro hf hrun
    rw [identifyBuys, if_neg hnv] at hrun
    refine identifyBuysGo_lookup forced sold bought lotsLoss maxLoss p.assetclasses buys
      a r hrun ?_ hf
    rw [hclass]
    rfl

/-- C9, witness: for the demonstration portfolio with AAA pinned for class
A, the pinning passes validation (AAA belongs to A), and the run with AAA in
the sold set and a large recorded loss still stores the pinned record for A,
bypassing both the wash-sale filter and the zero tolerance. -/
theorem c9_forced_buy_bypass_witness :
    processForcedBuys demoPortfolio [("A", some "AAA")] =
      .ok [("A", { security := some "AAA", badness := some 1 })] ∧
    ([("A", ({ security := some "AAA", badness := some 1 } : BuyRec)),
      ("B", ({ security := some "BBB", badness := some 1 } : BuyRec))].lookup "A") =
      some ({ security := some "AAA", badness := some 1 } : BuyRec) ∧
    "AAA" ∈ ["AAA"] ∧ ¬ |(-999 : Rat)| ≤ 0 :=
  have hpack := c9_forced_buy_bypass demoPortfolio "A" "AAA" (some 1)
    ⟨50, "A", ["AAA"], [some 1]⟩
    [("A", { security := some "AAA", badness := some 1 })]
    { security := some "AAA", badness := some 1 }
    ["AAA"] [] [("AAA", -999)] 0
    [("A", { security := some "AAA", badness := some 1 }),
     ("B", { security := some "BBB", badness := some 1 })]
    (by with_unfolding_all decide) (by with_unfolding_all decide)
  ⟨hpack.1 (by with_unfolding_all decide),
    hpack.2.2 (by with_unfolding_all decide) (by with_unfolding_all decide),
    by with_unfolding_all decide, by with_unfolding_all decide⟩

/-! Claim C10: None badness scores are accepted and invisible to the
automatic selector. -/

theorem isOk_error {eps alpha : Type} (e : eps) :
    (Except.error e : Except eps alpha).isOk = false := rfl

theorem isOk_ok {eps alpha : Type} (x : alpha) :
    (Except.ok x : Except eps alpha).isOk = true := rfl

theorem allElim_iff (f : Rat → Bool) (l : List (Option Rat)) :
    (l.all (fun i => i.elim true f) = true) ↔ ∀ q ∈ l.filterMap id, f q = true := by
  rw [List.all_eq_true]
  constructor
  · intro h q hq
    obtain ⟨o, ho, heq⟩ := List.mem_filterMap.mp hq
    have h2 := h o ho
    cases o with
    | none => cases heq
    | some q2 =>
      have hq2 : q2 = q := Option.some.inj heq
      subst hq2
      exact h2
  · intro h o ho
    cases o with
    | none => rfl
    | some q => exact h q (List.mem_filterMap.mpr ⟨some q, ho, rfl⟩)

/-- The validation of TargetAssetclass.__init__ succeeds exactly when the
target is an integer percentage in range, the lengths match, every non-None
badness score is an integer at least 1, some score equals 1, the distinct
non-None scores are consecutive, and the name is not reserved: the
integrality, lower-bound and consecutiveness checks only inspect the
non-None scores. -/
theorem initOk_iff (t : Rat) (nm : String) (secs : List String) (bds : List (Option Rat)) :
    (TargetAssetclass.init t nm secs bds).isOk = true ↔
      ((0 < t ∧ t ≤ 100) ∧ t.den = 1 ∧ bds.length = secs.length ∧
       (∀ q ∈ bds.filterMap id, q.den = 1) ∧
       (∀ q ∈ bds.filterMap id, 1 ≤ q) ∧
       some (1 : Rat) ∈ bds ∧
       consecutiveCheck (sortAscBy id (bds.filterMap id).dedup) = true ∧
       ¬ (nm = OTHER_NAME ∨ nm = CASH_NAME)) := by
  constructor
  · intro hok
    rw [TargetAssetclass.init] at hok
    split_ifs at hok with h1 h2 h3 h4 h5 h6 h7 h8
    all_goals try exact absurd hok (by rw [isOk_error]; exact Bool.false_ne_true)
    refine ⟨h1, h2, h3, ?_, ?_, ?_, h7, h8⟩
    · intro q hq
      exact beq_iff_eq.mp ((allElim_iff (fun q => q.den == 1) bds).mp h4 q hq)
    · intro q hq
      exact of_decide_eq_true ((allElim_iff (fun q => decide (1 ≤ q)) bds).mp h5 q hq)
    · obtain ⟨o, ho, hbeq⟩ := List.any_eq_true.mp h6
      have h9 : o = some 1 := by simpa using hbeq
      rw [← h9]
      exact ho
  · intro hrhs
    obtain ⟨hc1, hc2, hc3, hc4, hc5, hc6, hc7, hc8⟩ := hrhs
    rw [TargetAssetclass.init]
    rw [if_neg (not_not_intro hc1), if_neg (not_not_intro hc2), if_neg (not_not_intro hc3)]
    rw [if_neg (not_not_intro ((allElim_iff _ bds).mpr
      (fun q hq => by rw [beq_iff_eq]; exact hc4 q hq)))]
    rw [if_neg (not_not_intro ((allElim_iff _ bds).mpr
      (fun q hq => decide_eq_true (hc5 q hq))))]
    rw [if_neg (not_not_intro (List.any_eq_true.mpr ⟨some 1, hc6, by simp⟩))]
    rw [if_neg (not_not_intro hc7)]
    rw [if_neg hc8]
    rfl

/-- A security at a position whose badness score is None belongs to no
badness tier, provided its ticker appears only once in the class. -/
theorem securitiesAt_skips_none (a : TargetAssetclass) (k : Nat)
    (hk : k < a.badnessScores.length) (hnone : a.badnessScores.getD k none = none)
    (hlen : a.securities.length = a.badnessScores.length) (hnd : a.securities.Nodup)
    (q : Rat) : a.securities.getD k "" ∉ a.securitiesAt (some q) := by
  intro hmem
  obtain ⟨pr, hpr, heq⟩ := List.mem_filterMap.mp hmem
  by_cases hcond : (some q : Option Rat) = none ∨ pr.2 = some q
  · rw [if_pos hcond] at heq
    have hksec : k < a.securities.length := by omega
    have hfst : pr.1 = a.securities.getD k "" := Option.some.inj heq
    obtain ⟨i, hi, hpri⟩ := List.mem_iff_getElem.mp hpr
    obtain ⟨hi1, hi2⟩ : i < a.securities.length ∧ i < a.badnessScores.length := by
      rw [List.length_zip] at hi
      omega
    have hzip : (a.securities.zip a.badnessScores)[i] =
        (a.securities[i], a.badnessScores[i]) := List.getElem_zip ..
    rw [hzip] at hpri
    have hsk : a.securities[i] = a.securities[k] := by
      have h2 : pr.1 = a.securities[i] := by rw [← hpri]
      rw [← h2, hfst]
      exact getD_eq_getElem_of_lt a.securities "" k hksec
    have hik : i = k := hnd.getElem_inj_iff.mp hsk
    subst hik
    have hbd : pr.2 = a.badnessScores[i] := by rw [← hpri]
    have hbkd : a.badnessScores[i] = none := by
      rw [← List.getD_eq_getElem a.badnessScores none hi2]
      exact hnone
    rw [hbkd] at hbd
    rcases hcond with hc | hc
    · cases hc
    · rw [hbd] at hc; cases hc
  · rw [if_neg hcond] at heq
    cases heq

/-- C10.  TargetAssetclass accepts None badness scores: the integrality,
lower-bound and consecutiveness checks inspect only the non-None scores
(while some score must equal 1), as the first part states exactly.  A
security whose badness is None belongs to no badness tier, so the automatic
tier loop of the buy selector, which walks integer tiers from 1 and returns
a member of the tier it selects, can never choose it: it is reachable only
through a ForcedBuy.  The loop stops at the first tier with no securities,
as the last part states. -/
theorem c10_none_badness :
    (∀ (t : Rat) (nm : String) (secs : List String) (bds : List (Option Rat)),
      (TargetAssetclass.init t nm secs bds).isOk = true ↔
        ((0 < t ∧ t ≤ 100) ∧ t.den = 1 ∧ bds.length = secs.length ∧
         (∀ q ∈ bds.filterMap id, q.den = 1) ∧
         (∀ q ∈ bds.filterMap id, 1 ≤ q) ∧
         some (1 : Rat) ∈ bds ∧
         consecutiveCheck (sortAscBy id (bds.filterMap id).dedup) = true ∧
         ¬ (nm = OTHER_NAME ∨ nm = CASH_NAME))) ∧
    (∀ (a : TargetAssetclass) (k : Nat), k < a.badnessScores.length →
      a.badnessScores.getD k none = none →
      a.securities.length = a.badnessScores.length → a.securities.Nodup →
      (∀ q : Rat, a.securities.getD k "" ∉ a.securitiesAt (some q)) ∧
      (∀ (sold bought : List String) (lotsLoss : List (String × Rat)) (maxLoss : Rat)
        (fuel : Nat) (tier : Rat) (r : BuyRec) (s : String),
        selectBuyAux a sold bought lotsLoss maxLoss fuel tier = some r →
        r.security = some s → s ≠ a.securities.getD k "")) ∧
    (∀ (a : TargetAssetclass) (sold bought : List String) (lotsLoss : List (String × Rat))
      (maxLoss : Rat) (fuel : Nat) (tier : Rat),
      a.securitiesAt (some tier) = [] →
      selectBuyAux a sold bought lotsLoss maxLoss (fuel + 1) tier = none) := by
  refine ⟨initOk_iff, ?_, ?_⟩
  · intro a k hk hnone hlen hnd
    refine ⟨securitiesAt_skips_none a k hk hnone hlen hnd, ?_⟩
    intro sold bought lotsLoss maxLoss fuel tier r s hsel hs hcontra
    obtain ⟨t2, o, hr, hhead, _⟩ :=
      selectBuyAux_pick a sold bought lotsLoss maxLoss fuel tier r hsel
    have hmem : o ∈ buyOptionsAt a t2 sold bought lotsLoss :=
      mem_sortAscBy _ _ o (head?_mem _ o hhead)
    have hss : s = o.1 := by
      rw [hr] at hs
      injection hs with h2
      exact h2.symm
    have hsec : o.1 ∈ a.securitiesAt (some t2) :=
      (buyOptionsAt_mem a t2 sold bought lotsLoss o.1 o.2 hmem).1
    rw [← hss, hcontra] at hsec
    exact securitiesAt_skips_none a k hk hnone hlen hnd t2 hsec
  · intro a sold bought lotsLoss maxLoss fuel tier hemp
    rw [selectBuyAux, if_pos hemp]

/-- C10, witness: a class declaring S2 with a None badness passes the
constructor checks, S2 belongs to no tier, and the tier loop returns none at
the empty tier 2. -/
theorem c10_none_badness_witness :
    (TargetAssetclass.init 100 "X" ["S1", "S2"] [some 1, none]).isOk = true ∧
    "S2" ∉ TargetAssetclass.securitiesAt ⟨100, "X", ["S1", "S2"], [some 1, none]⟩ (some 1) ∧
    selectBuyAux ⟨100, "X", ["S1", "S2"], [some 1, none]⟩ [] [] [] 0 5 2 = none :=
  ⟨(c10_none_badness.1 100 "X" ["S1", "S2"] [some 1, none]).mpr (by with_unfolding_all decide),
    (c10_none_badness.2.1 ⟨100, "X", ["S1", "S2"], [some 1, none]⟩ 1
      (by decide) (by decide) (by decide) (by with_unfolding_all decide)).1 1,
    c10_none_badness.2.2 ⟨100, "X", ["S1", "S2"], [some 1, none]⟩ [] [] [] 0 4 2
      (by with_unfolding_all decide)⟩

/-! Claims C1 and C4: the allocation solver on a strict-subset active set
and on an empty active set. -/

/-- C1.  The claim says the allocation solver returns a feasible allocation
on every run with a non-empty active set, including when the active set is a
strict subset of the target classes.  On three classes with targets 40/40/20
where the third class has no buy security (active set a strict subset) and
floors 100/0/0, the first clamping iteration raises the numpy IndexError:
the boolean index J has the compressed length N = 2 while Imj, mu, ell and
chi have the full length 3.  The code comment explicitly intends strict
subsets to work (chi is renormalized over the active set), so the claim
matches the intent and the indexing is the slip. -/
theorem c1_strict_subset_solver_crashes :
    identifyBuyAmounts (fun _ => 0) [40, 40, 20] [100, 0, 0] [true, true, false] 0 =
      .error .indexError := by
  with_unfolding_all decide

/-- Exit form of the clamping loop: when no compressed coordinate is
strictly below its floor, the loop returns its state unchanged, whatever
fuel remains. -/
theorem solveLoop_exit (junk : Rat → Rat) (chi ell : List Rat) (total : Rat)
    (bigI : List Bool) (nn : Nat) (fuel : Nat) (st : SolveState)
    (h : ¬ 0 < ((maskSelect st.x bigI).zipWith (fun a b => decide (a < b))
      (maskSelect ell bigI)).count true) :
    solveLoop junk chi ell total bigI nn fuel st = .ok st := by
  cases fuel with
  | zero => rfl
  | succ f => rw [solveLoop, if_neg h]

theorem zipWith_sub_self (v : List Rat) :
    v.zipWith (fun a b => a - b) v = List.replicate v.length 0 := by
  induction v with
  | nil => rfl
  | cons a t ih =>
    simp only [List.zipWith_cons_cons, List.length_cons, List.replicate_succ, ih, sub_self]

theorem map_npDiv_zero_any (junk : Rat → Rat) (targets : List Rat) :
    ((targets.map (fun c => npDiv junk c 0)).any (fun p => p.2)) = !targets.isEmpty := by
  cases targets with
  | nil => rfl
  | cons a t => simp [npDiv]

/-- C4, counterexample.  The claim says that with an empty active set no
optimization is performed and in particular the computation of gamma never
divides by zero.  On a single class with no buy security, the run completes
and performs no optimization (the purchase target is 0), but the gamma line
does divide 2 by N = 0 (and the chi renormalization divides by the empty
target sum): numpy merely turns these into non-raising inf values, recorded
here by the divGamma and divChi flags being true. -/
theorem c4_counterexample :
    identifyBuyAmounts (fun _ => 0) [100] [50] [false] 10 =
      .ok { targetBuys := [0], divChi := true, divGamma := true } := by
  with_unfolding_all decide

/-- C4, amended.  With an empty active set the solver performs no clamping
iteration and completes without raising: every class reports a purchase
target of 0 and the iterate stays at the floors, for every value the
divisions by zero may take (the junk parameter).  The division by zero in
the gamma line does happen (divGamma is true) but its value is dead: the
masked assignment to x ranges over no index and the loop exits at once. -/
theorem c4_empty_active_set (junk : Rat → Rat) (targets ell : List Rat) (cash : Rat)
    (h : ell.length = targets.length) :
    identifyBuyAmounts junk targets ell (List.replicate targets.length false) cash =
      .ok { targetBuys := List.replicate ell.length 0,
            divChi := !targets.isEmpty, divGamma := true } := by
  have hcount : (List.replicate targets.length false).count true = 0 := by
    simp [List.count_replicate]
  simp only [identifyBuyAmounts, maskSelect_all_false, List.sum_nil, List.map_nil, hcount,
    Nat.cast_zero]
  rw [maskAssignE]
  rw [if_pos ⟨by simp [h], by simp [hcount]⟩]
  rw [maskAssignGo_all_false]
  split
  · next e heq => cases heq
  · next x0 heq =>
    injection heq with hx0
    subst hx0
    rw [solveLoop_exit _ _ _ _ _ _ _ _ (by simp [maskSelect_all_false])]
    split
    · next e heq2 => cases heq2
    · next st2 heq2 =>
      injection heq2 with hst
      subst hst
      have hdg : (npDiv junk 2 0).2 = true := by simp [npDiv]
      have hdc : ((targets.map (fun c => npDiv junk c 0)).any (fun p => p.2)) = !targets.isEmpty :=
        map_npDiv_zero_any junk targets
      simp only [zipWith_sub_self, hdg, hdc]

/-- C4, witness: a two-class table with no buy securities completes with
zero purchase targets and a recorded division by zero in the gamma line. -/
theorem c4_empty_active_set_witness :
    identifyBuyAmounts (fun _ => 0) [30, 70] [1, 2] (List.replicate 2 false) 5 =
      .ok { targetBuys := List.replicate 2 0, divChi := true, divGamma := true } :=
  c4_empty_active_set (fun _ => 0) [30, 70] [1, 2] 5 rfl

/-! Proof-side normal forms of one clamping iteration on a full active set
(every class has a buy security, so every boolean index has the full
length), and the bridge from the translated solveStep to them. -/

/-- The clamped index set J of an iteration: coordinates at or below their
floor. -/
def stepJ (x ell : List Rat) : List Bool :=
  x.zipWith (fun a b => decide (a ≤ b)) ell

/-- The multiplier gamma of an iteration on a full active set. -/
def stepGamma (chi ell : List Rat) (total : Rat) (n : Nat) (x : List Rat) : Rat :=
  (2 / ((n : Rat) - ((stepJ x ell).count true : Nat))) *
    ((maskSelect chi ((stepJ x ell).map (fun b => !b))).sum +
      (maskSelect ell (stepJ x ell)).sum - total)

/-- The updated multipliers mu of an iteration on a full active set. -/
def stepMu (chi ell : List Rat) (total : Rat) (n : Nat) (x mu : List Rat) : List Rat :=
  maskBlend (stepJ x ell)
    (ell.zipWith (fun e c => 2 * (e - c) + stepGamma chi ell total n x) chi) mu

/-- The updated iterate x of an iteration on a full active set. -/
def stepX (chi ell : List Rat) (total : Rat) (n : Nat) (x mu : List Rat) : List Rat :=
  chi.zipWith (fun c m => c + (1 / 2) * (m - stepGamma chi ell total n x))
    (stepMu chi ell total n x mu)

theorem mapIfNot (l : List Bool) :
    l.map (fun jb => if jb = true then false else true) = l.map (fun b => !b) := by
  induction l with
  | nil => rfl
  | cons b t ih => cases b <;> simp [ih]

theorem stepJ_length (x ell : List Rat) (n : Nat) (hx : x.length = n) (he : ell.length = n) :
    (stepJ x ell).length = n := by
  rw [stepJ, List.length_zipWith, hx, he]
  exact Nat.min_self n

theorem stepMu_length (chi ell : List Rat) (total : Rat) (n : Nat) (x mu : List Rat)
    (hchi : chi.length = n) (he : ell.length = n) (hx : x.length = n) (hmu : mu.length = n) :
    (stepMu chi ell total n x mu).length = n := by
  rw [stepMu]
  exact maskBlend_length _ _ _ n (stepJ_length x ell n hx he)
    (by rw [List.length_zipWith, he, hchi]; exact Nat.min_self n) hmu

theorem stepX_length (chi ell : List Rat) (total : Rat) (n : Nat) (x mu : List Rat)
    (hchi : chi.length = n) (he : ell.length = n) (hx : x.length = n) (hmu : mu.length = n) :
    (stepX chi ell total n x mu).length = n := by
  rw [stepX, List.length_zipWith, hchi, stepMu_length chi ell total n x mu hchi he hx hmu]
  exact Nat.min_self n

/-- On a full active set with at least one free coordinate, the translated
solveStep succeeds and computes exactly the normal forms stepMu and stepX,
leaving the division-by-zero flag unchanged. -/
theorem solveStep_full (junk : Rat → Rat) (chi ell : List Rat) (total : Rat) (n : Nat)
    (hchi : chi.length = n) (hell : ell.length = n)
    (x mu : List Rat) (d : Bool) (hx : x.length = n) (hmu : mu.length = n)
    (hklt : (stepJ x ell).count true < n) :
    solveStep junk chi ell total (List.replicate n true) n ⟨x, mu, d⟩ =
      .ok ⟨stepX chi ell total n x mu, stepMu chi ell total n x mu, d⟩ := by
  have hjlen : (stepJ x ell).length = n := stepJ_length x ell n hx hell
  have hsub : ((n - (stepJ x ell).count true : Nat) : Rat) =
      (n : Rat) - ((stepJ x ell).count true : Nat) := Nat.cast_sub (le_of_lt hklt)
  have hndk : ((n : Rat) - ((stepJ x ell).count true : Nat)) ≠ 0 := by
    rw [← hsub]
    exact_mod_cast Nat.sub_ne_zero_of_lt hklt
  have hnp1 : (npDiv junk 2 ((n : Rat) - ((stepJ x ell).count true : Nat))).1 =
      2 / ((n : Rat) - ((stepJ x ell).count true : Nat)) := by
    rw [npDiv, if_neg hndk]
  have hnp2 : (npDiv junk 2 ((n : Rat) - ((stepJ x ell).count true : Nat))).2 = false := by
    rw [npDiv, if_neg hndk]
  have hforce : maskForceFalse (List.replicate n true) (stepJ x ell) =
      .ok ((stepJ x ell).map (fun b => !b)) := by
    rw [maskForceFalse, if_pos (by rw [hjlen, List.length_replicate])]
    rw [zipWith_map_not (stepJ x ell) _ n hjlen]
    rw [mapIfNot]
  have hselell : maskSelectE ell (stepJ x ell) = .ok (maskSelect ell (stepJ x ell)) := by
    rw [maskSelectE, if_pos (by rw [hjlen, hell])]
  have hselchi : maskSelectE chi (stepJ x ell) = .ok (maskSelect chi (stepJ x ell)) := by
    rw [maskSelectE, if_pos (by rw [hjlen, hchi])]
  rw [solveStep]
  simp only [maskSelect_all_true x n hx, maskSelect_all_true ell n hell]
  rw [show x.zipWith (fun a b => decide (a ≤ b)) ell = stepJ x ell from rfl]
  rw [hforce, hselell]
  simp only [hnp1, hnp2]
  rw [hselchi]
  have hassignmu : maskAssignE mu (stepJ x ell)
      ((maskSelect ell (stepJ x ell)).zipWith
        (fun e c => 2 * (e - c) +
          2 / ((n : Rat) - ((stepJ x ell).count true : Nat)) *
            ((maskSelect chi ((stepJ x ell).map (fun b => !b))).sum +
              (maskSelect ell (stepJ x ell)).sum - total))
        (maskSelect chi (stepJ x ell))) = .ok (stepMu chi ell total n x mu) := by
    rw [maskAssignE, if_pos ?_]
    · rw [stepMu, stepGamma]
      exact congrArg Except.ok
        (maskAssignGo_select2 _ (stepJ x ell) mu ell chi (by rw [hmu, hjlen])
          (by rw [hell, hjlen]) (by rw [hchi, hjlen]))
    · constructor
      · rw [hjlen, hmu]
      · rw [List.length_zipWith, maskSelect_length ell (stepJ x ell) (by rw [hjlen, hell]),
          maskSelect_length chi (stepJ x ell) (by rw [hjlen, hchi])]
        exact Nat.min_self _
  have hmulen : (stepMu chi ell total n x mu).length = n :=
    stepMu_length chi ell total n x mu hchi hell hx hmu
  have hassignx : maskAssignE x (List.replicate n true)
      ((maskSelect chi (List.replicate n true)).zipWith
        (fun c m => c + (1 / 2) *
          (m - 2 / ((n : Rat) - ((stepJ x ell).count true : Nat)) *
            ((maskSelect chi ((stepJ x ell).map (fun b => !b))).sum +
              (maskSelect ell (stepJ x ell)).sum - total)))
        (maskSelect (stepMu chi ell total n x mu) (List.replicate n true))) =
      .ok (stepX chi ell total n x mu) := by
    rw [maskAssignE, if_pos ?_]
    · rw [maskSelect_all_true chi n hchi,
        maskSelect_all_true (stepMu chi ell total n x mu) n hmulen]
      refine congrArg Except.ok ?_
      have hxlen : x.length = n := hx
      rw [show (List.replicate n true) = List.replicate x.length true by rw [hxlen]]
      rw [maskAssignGo_all_true]
      · rw [stepX, stepGamma]
      · rw [List.length_zipWith, hchi, hmulen, hx]
        exact Nat.min_self n
    · constructor
      · rw [List.length_replicate, hx]
      · rw [List.length_zipWith, maskSelect_all_true chi n hchi,
          maskSelect_all_true (stepMu chi ell total n x mu) n hmulen, hchi, hmulen]
        simp [List.count_replicate]
  split
  · next e heq => cases heq
  · next chiJ heq =>
    injection heq with hchiJ
    subst hchiJ
    rw [hassignmu]
    split
    · next e heq2 => cases heq2
    · next mu2 heq2 =>
      injection heq2 with hmu2
      subst hmu2
      rw [hassignx]
      split
      · next e heq3 => cases heq3
      · next x2 heq3 =>
        injection heq3 with hx2
        subst hx2
        simp [Bool.or_false]

/-! Pointwise and summation facts about one clamping iteration. -/

theorem sum_eq_range_getD2 (l : List Rat) (n : Nat) (h : l.length = n) :
    l.sum = ∑ i ∈ Finset.range n, l.getD i 0 := by
  rw [sum_eq_range_getD, h]

theorem getD_zipWith (f : Rat → Rat → Rat) (a b : List Rat) (n i : Nat)
    (ha : a.length = n) (hb : b.length = n) (hi : i < n) :
    (a.zipWith f b).getD i 0 = f (a.getD i 0) (b.getD i 0) := by
  have hzl : (a.zipWith f b).length = n := by
    rw [List.length_zipWith, ha, hb]; exact Nat.min_self n
  rw [getD_eq_getElem_of_lt _ _ _ (by omega : i < (a.zipWith f b).length),
    getD_eq_getElem_of_lt _ _ _ (by omega : i < a.length),
    getD_eq_getElem_of_lt _ _ _ (by omega : i < b.length)]
  exact List.getElem_zipWith ..

theorem stepJ_getD (x ell : List Rat) (n i : Nat) (hx : x.length = n)
    (he : ell.length = n) (hi : i < n) :
    (stepJ x ell).getD i false = decide (x.getD i 0 ≤ ell.getD i 0) := by
  have hjl : (stepJ x ell).length = n := stepJ_length x ell n hx he
  rw [stepJ] at hjl ⊢
  rw [List.getD_eq_getElem _ false (by omega : i < (x.zipWith (fun a b => decide (a ≤ b)) ell).length)]
  rw [List.getElem_zipWith]
  rw [getD_eq_getElem_of_lt _ _ _ (by omega : i < x.length),
    getD_eq_getElem_of_lt _ _ _ (by omega : i < ell.length)]

theorem stepMu_getD (chi ell : List Rat) (total : Rat) (n : Nat) (x mu : List Rat)
    (hchi : chi.length = n) (he : ell.length = n) (hx : x.length = n) (hmu : mu.length = n)
    (i : Nat) (hi : i < n) :
    (stepMu chi ell total n x mu).getD i 0 =
      if (stepJ x ell).getD i false then
        2 * (ell.getD i 0 - chi.getD i 0) + stepGamma chi ell total n x
      else mu.getD i 0 := by
  rw [stepMu]
  rw [maskBlend_getD (stepJ x ell) _ mu n (stepJ_length x ell n hx he)
    (by rw [List.length_zipWith, he, hchi]; exact Nat.min_self n) hmu i hi]
  rw [getD_zipWith _ ell chi n i he hchi hi]

theorem stepX_getD (chi ell : List Rat) (total : Rat) (n : Nat) (x mu : List Rat)
    (hchi : chi.length = n) (he : ell.length = n) (hx : x.length = n) (hmu : mu.length = n)
    (i : Nat) (hi : i < n) :
    (stepX chi ell total n x mu).getD i 0 =
      chi.getD i 0 + (1 / 2) * ((stepMu chi ell total n x mu).getD i 0 -
        stepGamma chi ell total n x) := by
  rw [stepX]
  rw [getD_zipWith _ chi (stepMu chi ell total n x mu) n i hchi
    (stepMu_length chi ell total n x mu hchi he hx hmu) hi]

/-- A coordinate in the clamped set J lands exactly on its floor. -/
theorem stepX_clamped (chi ell : List Rat) (total : Rat) (n : Nat) (x mu : List Rat)
    (hchi : chi.length = n) (he : ell.length = n) (hx : x.length = n) (hmu : mu.length = n)
    (i : Nat) (hi : i < n) (hJ : (stepJ x ell).getD i false = true) :
    (stepX chi ell total n x mu).getD i 0 = ell.getD i 0 := by
  rw [stepX_getD chi ell total n x mu hchi he hx hmu i hi,
    stepMu_getD chi ell total n x mu hchi he hx hmu i hi, if_pos hJ]
  ring

/-- The multiplier invariant is preserved: after a step, a coordinate with a
non-zero multiplier sits exactly on its floor. -/
theorem stepMu_inv (chi ell : List Rat) (total : Rat) (n : Nat) (x mu : List Rat)
    (hchi : chi.length = n) (he : ell.length = n) (hx : x.length = n) (hmu : mu.length = n)
    (hinv : ∀ i, i < n → mu.getD i 0 ≠ 0 → x.getD i 0 = ell.getD i 0)
    (i : Nat) (hi : i < n) (hne : (stepMu chi ell total n x mu).getD i 0 ≠ 0) :
    (stepX chi ell total n x mu).getD i 0 = ell.getD i 0 := by
  by_cases hJ : (stepJ x ell).getD i false = true
  · exact stepX_clamped chi ell total n x mu hchi he hx hmu i hi hJ
  · rw [stepMu_getD chi ell total n x mu hchi he hx hmu i hi, if_neg hJ] at hne
    have hxe := hinv i hi hne
    rw [stepJ_getD x ell n i hx he hi] at hJ
    exact absurd (decide_eq_true (le_of_eq hxe)) hJ

/-- Off the clamped set the old multipliers are zero (contrapositive of the
multiplier invariant). -/
theorem mu_zero_off_J (ell : List Rat) (n : Nat) (x mu : List Rat)
    (he : ell.length = n) (hx : x.length = n)
    (hinv : ∀ i, i < n → mu.getD i 0 ≠ 0 → x.getD i 0 = ell.getD i 0)
    (i : Nat) (hi : i < n) (hJ : (stepJ x ell).getD i false = false) :
    mu.getD i 0 = 0 := by
  by_contra hne
  have hxe := hinv i hi hne
  rw [stepJ_getD x ell n i hx he hi] at hJ
  rw [hxe] at hJ
  simp at hJ

theorem maskSelect_not_sum (v : List Rat) (m : List Bool) (h : m.length = v.length) :
    (maskSelect v (m.map (fun b => !b))).sum = v.sum - (maskSelect v m).sum := by
  rw [maskSelect_sum v m h, maskSelect_sum v (m.map (fun b => !b)) (by rw [List.length_map, h])]
  rw [sum_eq_range_getD v]
  rw [← Finset.sum_sub_distrib]
  refine Finset.sum_congr rfl ?_
  intro i hi
  have hiv : i < v.length := Finset.mem_range.mp hi
  have him : i < m.length := by omega
  have hmap : (m.map (fun b => !b)).getD i false = !(m.getD i false) := by
    rw [getD_eq_getElem_of_lt _ _ _ (by rw [List.length_map]; omega),
      getD_eq_getElem_of_lt _ _ _ him]
    exact List.getElem_map ..
  rw [hmap]
  cases hm : m.getD i false <;> simp

/-- Summation of the updated multipliers, using that the old multipliers
vanish off the clamped set. -/
theorem stepMu_sum (chi ell : List Rat) (total : Rat) (n : Nat) (x mu : List Rat)
    (hchi : chi.length = n) (he : ell.length = n) (hx : x.length = n) (hmu : mu.length = n)
    (hmu0 : ∀ i, i < n → (stepJ x ell).getD i false = false → mu.getD i 0 = 0) :
    (stepMu chi ell total n x mu).sum =
      2 * (maskSelect ell (stepJ x ell)).sum - 2 * (maskSelect chi (stepJ x ell)).sum +
        ((stepJ x ell).count true : Rat) * stepGamma chi ell total n x := by
  have hjl : (stepJ x ell).length = n := stepJ_length x ell n hx he
  rw [sum_eq_range_getD, stepMu_length chi ell total n x mu hchi he hx hmu]
  have hpt : ∀ i ∈ Finset.range n, (stepMu chi ell total n x mu).getD i 0 =
      2 * (if (stepJ x ell).getD i false then ell.getD i 0 else 0) -
        2 * (if (stepJ x ell).getD i false then chi.getD i 0 else 0) +
        (if (stepJ x ell).getD i false then stepGamma chi ell total n x else 0) := by
    intro i hi
    have hin : i < n := Finset.mem_range.mp hi
    rw [stepMu_getD chi ell total n x mu hchi he hx hmu i hin]
    cases hJ : (stepJ x ell).getD i false
    · simp only [Bool.false_eq_true, if_false, hmu0 i hin hJ]
      ring
    · simp only [eq_self_iff_true, if_true]
      ring
  rw [Finset.sum_congr rfl hpt]
  rw [Finset.sum_add_distrib, Finset.sum_sub_distrib, ← Finset.mul_sum, ← Finset.mul_sum]
  rw [maskSelect_sum ell (stepJ x ell) (by rw [hjl, he]),
    maskSelect_sum chi (stepJ x ell) (by rw [hjl, hchi]), he, hchi]
  have hgs : ∑ i ∈ Finset.range n, (if (stepJ x ell).getD i false then
      stepGamma chi ell total n x else 0) =
      ((stepJ x ell).count true : Rat) * stepGamma chi ell total n x := by
    rw [count_true_eq_sum, hjl, Finset.sum_mul]
    refine Finset.sum_congr rfl ?_
    intro i hi
    cases hJ : (stepJ x ell).getD i false <;> simp
  rw [hgs]

/-- Summation of the updated iterate. -/
theorem stepX_sum (chi ell : List Rat) (total : Rat) (n : Nat) (x mu : List Rat)
    (hchi : chi.length = n) (he : ell.length = n) (hx : x.length = n) (hmu : mu.length = n) :
    (stepX chi ell total n x mu).sum =
      chi.sum + (1 / 2) * (stepMu chi ell total n x mu).sum -
        (n : Rat) * ((1 / 2) * stepGamma chi ell total n x) := by
  rw [sum_eq_range_getD, stepX_length chi ell total n x mu hchi he hx hmu]
  have hpt : ∀ i ∈ Finset.range n, (stepX chi ell total n x mu).getD i 0 =
      chi.getD i 0 + (1 / 2) * (stepMu chi ell total n x mu).getD i 0 -
        (1 / 2) * stepGamma chi ell total n x := by
    intro i hi
    rw [stepX_getD chi ell total n x mu hchi he hx hmu i (Finset.mem_range.mp hi)]
    ring
  rw [Finset.sum_congr rfl hpt]
  rw [Finset.sum_sub_distrib, Finset.sum_add_distrib, ← Finset.mul_sum, Finset.sum_const,
    Finset.card_range]
  rw [← sum_eq_range_getD2 chi n hchi, ← sum_eq_range_getD2 (stepMu chi ell total n x mu) n
    (stepMu_length chi ell total n x mu hchi he hx hmu)]
  rw [nsmul_eq_mul]

/-- With at least one free coordinate, one clamping iteration preserves the
budget: the updated iterate still sums to T. -/
theorem stepX_sum_total (chi ell : List Rat) (total : Rat) (n : Nat) (x mu : List Rat)
    (hchi : chi.length = n) (he : ell.length = n) (hx : x.length = n) (hmu : mu.length = n)
    (hklt : (stepJ x ell).count true < n)
    (hinv : ∀ i, i < n → mu.getD i 0 ≠ 0 → x.getD i 0 = ell.getD i 0) :
    (stepX chi ell total n x mu).sum = total := by
  have hmu0 : ∀ i, i < n → (stepJ x ell).getD i false = false → mu.getD i 0 = 0 :=
    fun i hi hJ => mu_zero_off_J ell n x mu he hx hinv i hi hJ
  have hsub : ((n - (stepJ x ell).count true : Nat) : Rat) =
      (n : Rat) - ((stepJ x ell).count true : Nat) := Nat.cast_sub (le_of_lt hklt)
  have hndk : ((n : Rat) - ((stepJ x ell).count true : Nat)) ≠ 0 := by
    rw [← hsub]
    exact_mod_cast Nat.sub_ne_zero_of_lt hklt
  have hgm : ((n : Rat) - ((stepJ x ell).count true : Nat)) * stepGamma chi ell total n x =
      2 * ((maskSelect chi ((stepJ x ell).map (fun b => !b))).sum +
        (maskSelect ell (stepJ x ell)).sum - total) := by
    rw [stepGamma]
    field_simp
  have hA : (maskSelect chi ((stepJ x ell).map (fun b => !b))).sum =
      chi.sum - (maskSelect chi (stepJ x ell)).sum :=
    maskSelect_not_sum chi (stepJ x ell) (by rw [stepJ_length x ell n hx he, hchi])
  rw [hA] at hgm
  rw [stepX_sum chi ell total n x mu hchi he hx hmu,
    stepMu_sum chi ell total n x mu hchi he hx hmu hmu0]
  linear_combination (-1 / 2 : Rat) * hgm

/-- The while condition of the clamping loop, read pointwise. -/
theorem cond_iff (x ell : List Rat) (n : Nat) (hx : x.length = n) (he : ell.length = n) :
    (0 < ((x.zipWith (fun a b => decide (a < b)) ell).count true)) ↔
      ∃ i, i < n ∧ x.getD i 0 < ell.getD i 0 := by
  have hzl : (x.zipWith (fun a b => decide (a < b)) ell).length = n := by
    rw [List.length_zipWith, hx, he]; exact Nat.min_self n
  rw [List.count_pos_iff]
  constructor
  · intro hmem
    obtain ⟨i, hi, hget⟩ := List.mem_iff_getElem.mp hmem
    have hin : i < n := by omega
    refine ⟨i, hin, ?_⟩
    rw [List.getElem_zipWith] at hget
    have := of_decide_eq_true hget
    rwa [getD_eq_getElem_of_lt x 0 i (by omega), getD_eq_getElem_of_lt ell 0 i (by omega)]
  · intro hviol
    obtain ⟨i, hi, hlt⟩ := hviol
    refine List.mem_iff_getElem.mpr ⟨i, by omega, ?_⟩
    rw [List.getElem_zipWith]
    refine decide_eq_true ?_
    rwa [getD_eq_getElem_of_lt x 0 i (by omega), getD_eq_getElem_of_lt ell 0 i (by omega)] at hlt

/-- When every coordinate is clamped, the iterate is pointwise at most the
floors. -/
theorem all_le_of_count_full (x ell : List Rat) (n : Nat) (hx : x.length = n)
    (he : ell.length = n) (hcnt : (stepJ x ell).count true = n) :
    ∀ i, i < n → x.getD i 0 ≤ ell.getD i 0 := by
  intro i hi
  have hjl := stepJ_length x ell n hx he
  have hmem := List.count_eq_length.mp (by rw [hcnt, hjl])
  have hgi : (stepJ x ell).get ⟨i, by omega⟩ ∈ stepJ x ell := List.get_mem ..
  have htrue : (stepJ x ell).getD i false = true := by
    rw [getD_eq_getElem_of_lt _ _ _ (by omega : i < (stepJ x ell).length)]
    have h2 := (hmem _ hgi).symm
    rwa [List.get_eq_getElem] at h2
  rw [stepJ_getD x ell n i hx he hi] at htrue
  exact of_decide_eq_true htrue

/-- While a strict violator exists and the budget dominates the floors, the
clamped set cannot be everything, so the gamma divisor stays non-zero. -/
theorem count_J_lt (x ell : List Rat) (total : Rat) (n : Nat)
    (hx : x.length = n) (he : ell.length = n)
    (hsum : x.sum = total) (htot : ell.sum ≤ total)
    (hviol : ∃ i, i < n ∧ x.getD i 0 < ell.getD i 0) :
    (stepJ x ell).count true < n := by
  have hjl := stepJ_length x ell n hx he
  by_contra hge
  have hcnt : (stepJ x ell).count true = n :=
    le_antisymm (hjl ▸ count_true_le_length _) (not_lt.mp hge)
  have hall := all_le_of_count_full x ell n hx he hcnt
  have hlt := sum_pointwise_lt n x ell hx he hall hviol
  linarith

/-- If the next iterate still has a strict violator, the clamped set has
strictly grown. -/
theorem count_J_step_lt (chi ell : List Rat) (total : Rat) (n : Nat) (x mu : List Rat)
    (hchi : chi.length = n) (he : ell.length = n) (hx : x.length = n) (hmu : mu.length = n)
    (hviol2 : ∃ i, i < n ∧ (stepX chi ell total n x mu).getD i 0 < ell.getD i 0) :
    (stepJ x ell).count true < (stepJ (stepX chi ell total n x mu) ell).count true := by
  have hxl : (stepX chi ell total n x mu).length = n :=
    stepX_length chi ell total n x mu hchi he hx hmu
  refine count_true_mono _ _ n (stepJ_length x ell n hx he)
    (stepJ_length (stepX chi ell total n x mu) ell n hxl he) ?_ ?_
  · intro i hi hJ
    rw [stepJ_getD (stepX chi ell total n x mu) ell n i hxl he hi]
    exact decide_eq_true
      (le_of_eq (stepX_clamped chi ell total n x mu hchi he hx hmu i hi hJ))
  · obtain ⟨v, hv, hvlt⟩ := hviol2
    refine ⟨v, hv, ?_, ?_⟩
    · cases hJ : (stepJ x ell).getD v false
      · rfl
      · exact absurd (stepX_clamped chi ell total n x mu hchi he hx hmu v hv hJ)
          (ne_of_lt hvlt)
    · rw [stepJ_getD (stepX chi ell total n x mu) ell n v hxl he hv]
      exact decide_eq_true (le_of_lt hvlt)

/-- Main loop invariant: on a full active set, with the budget dominating
the floors and enough fuel relative to the clamped count, the clamping loop
returns a feasible iterate: it has full length, sums to T and respects every
floor. -/
theorem solveLoop_full (junk : Rat → Rat) (chi ell : List Rat) (total : Rat) (n : Nat)
    (hchi : chi.length = n) (hell : ell.length = n) (htot : ell.sum ≤ total) :
    ∀ (fuel : Nat) (x mu : List Rat) (d : Bool),
      x.length = n → mu.length = n → x.sum = total →
      (∀ i, i < n → mu.getD i 0 ≠ 0 → x.getD i 0 = ell.getD i 0) →
      (n ≤ fuel + (stepJ x ell).count true ∨
        ¬ ∃ i, i < n ∧ x.getD i 0 < ell.getD i 0) →
      ∃ st2 : SolveState,
        solveLoop junk chi ell total (List.replicate n true) n fuel ⟨x, mu, d⟩ = .ok st2 ∧
        st2.x.length = n ∧ st2.x.sum = total ∧
        (∀ i, i < n → ell.getD i 0 ≤ st2.x.getD i 0) := by
  intro fuel
  induction fuel with
  | zero =>
    intro x mu d hx hmu hsum hinv hdisj
    refine ⟨⟨x, mu, d⟩, rfl, hx, hsum, ?_⟩
    rcases hdisj with hfuel | hnviol
    · have hcnt : (stepJ x ell).count true = n := le_antisymm
        ((stepJ_length x ell n hx hell) ▸ count_true_le_length _) (by omega)
      have hall := all_le_of_count_full x ell n hx hell hcnt
      intro i hi
      by_contra h2
      have hlt := sum_pointwise_lt n x ell hx hell hall ⟨i, hi, not_le.mp h2⟩
      linarith
    · intro i hi
      by_contra h2
      exact hnviol ⟨i, hi, not_le.mp h2⟩
  | succ f2 ih =>
    intro x mu d hx hmu hsum hinv hdisj
    rw [solveLoop]
    by_cases hcond : 0 < ((maskSelect x (List.replicate n true)).zipWith
        (fun a b => decide (a < b)) (maskSelect ell (List.replicate n true))).count true
    · rw [if_pos hcond]
      rw [maskSelect_all_true x n hx, maskSelect_all_true ell n hell] at hcond
      have hviol := (cond_iff x ell n hx hell).mp hcond
      have hklt := count_J_lt x ell total n hx hell hsum htot hviol
      rw [solveStep_full junk chi ell total n hchi hell x mu d hx hmu hklt]
      have hred : (match (Except.ok (⟨stepX chi ell total n x mu,
            stepMu chi ell total n x mu, d⟩ : SolveState) : Except Err SolveState) with
          | .error e => .error e
          | .ok st2 => solveLoop junk chi ell total (List.replicate n true) n f2 st2) =
          solveLoop junk chi ell total (List.replicate n true) n f2
            ⟨stepX chi ell total n x mu, stepMu chi ell total n x mu, d⟩ := rfl
      rw [hred]
      refine ih (stepX chi ell total n x mu) (stepMu chi ell total n x mu) d
        (stepX_length chi ell total n x mu hchi hell hx hmu)
        (stepMu_length chi ell total n x mu hchi hell hx hmu)
        (stepX_sum_total chi ell total n x mu hchi hell hx hmu hklt hinv)
        (fun i hi hne => stepMu_inv chi ell total n x mu hchi hell hx hmu hinv i hi hne) ?_
      by_cases hviol2 : ∃ i, i < n ∧ (stepX chi ell total n x mu).getD i 0 < ell.getD i 0
      · left
        have hgrow := count_J_step_lt chi ell total n x mu hchi hell hx hmu hviol2
        rcases hdisj with hfuel | hnviol
        · omega
        · exact absurd hviol hnviol
      · right
        exact hviol2
    · rw [if_neg hcond]
      rw [maskSelect_all_true x n hx, maskSelect_all_true ell n hell] at hcond
      refine ⟨⟨x, mu, d⟩, rfl, hx, hsum, ?_⟩
      intro i hi
      by_contra h2
      exact hcond ((cond_iff x ell n hx hell).mpr ⟨i, hi, not_le.mp h2⟩)

/-- Proof-side normal form of the renormalised targets chi computed by the
solver on a full active set with total tt. -/
def chiFull (junk : Rat → Rat) (targets : List Rat) (tt : Rat) : List Rat :=
  (targets.map (fun c => npDiv junk c targets.sum)).map (fun p => p.1 * tt)

/-- Proof-side normal form of the solver's unconstrained initial iterate on a
full active set of size n. -/
def xInit (junk : Rat → Rat) (targets : List Rat) (tt : Rat) (n : Nat) : List Rat :=
  (chiFull junk targets tt).map
    (fun c => c - 1 / 2 * (2 / (n : Rat) * ((chiFull junk targets tt).sum - tt)))

theorem chiFull_length (junk : Rat → Rat) (targets : List Rat) (tt : Rat) :
    (chiFull junk targets tt).length = targets.length := by
  rw [chiFull, List.length_map, List.length_map]

theorem xInit_length (junk : Rat → Rat) (targets : List Rat) (tt : Rat) (n : Nat) :
    (xInit junk targets tt n).length = targets.length := by
  rw [xInit, List.length_map, chiFull_length]

/-- The unconstrained initial iterate already meets the budget constraint. -/
theorem xInit_sum (junk : Rat → Rat) (targets : List Rat) (tt : Rat) (n : Nat)
    (hn0 : ((n : Nat) : Rat) ≠ 0) (htl : targets.length = n) :
    (xInit junk targets tt n).sum = tt := by
  rw [xInit, map_sub_const_sum, chiFull_length, htl]
  field_simp

/-- Feasibility of the solver on a full active set: with matching lengths, at
least one class, the iteration cap respected and non-negative cash, the solver
completes and returns buy amounts that are non-negative and sum to the cash. -/
theorem identifyBuyAmounts_feasible (junk : Rat → Rat) (targets ell : List Rat)
    (cash : Rat) (n : Nat) (ht : targets.length = n) (he : ell.length = n)
    (hn : 1 ≤ n) (hcap : n ≤ 1000) (hcash : 0 ≤ cash) :
    ∃ r : SolveResult,
      identifyBuyAmounts junk targets ell (List.replicate n true) cash = .ok r ∧
      r.targetBuys.length = n ∧ r.targetBuys.sum = cash ∧
      (∀ i, i < n → 0 ≤ r.targetBuys.getD i 0) := by
  have hn0 : ((n : Nat) : Rat) ≠ 0 := Nat.cast_ne_zero.mpr (by omega)
  have hcount : (List.replicate n true).count true = n := by simp
  have hg0 : npDiv junk 2 ((n : Nat) : Rat) = (2 / ((n : Nat) : Rat), false) := by
    rw [npDiv, if_neg hn0]
  have hchiFn : (chiFull junk targets (ell.sum + cash)).length = n := by
    rw [chiFull_length]; exact ht
  have hxn : (xInit junk targets (ell.sum + cash) n).length = n := by
    rw [xInit_length]; exact ht
  have hmaE : maskAssignE ell (List.replicate n true)
      (xInit junk targets (ell.sum + cash) n) =
      .ok (xInit junk targets (ell.sum + cash) n) := by
    rw [maskAssignE,
      if_pos ⟨by rw [List.length_replicate, he], by rw [hcount]; exact hxn⟩]
    have halt := maskAssignGo_all_true ell (xInit junk targets (ell.sum + cash) n)
      (by rw [hxn, he])
    rw [he] at halt
    rw [halt]
  have hmu0inv : ∀ i, i < n → (List.replicate n (0 : Rat)).getD i 0 ≠ 0 →
      (xInit junk targets (ell.sum + cash) n).getD i 0 = ell.getD i 0 := by
    intro i hi hne
    exfalso
    apply hne
    rw [getD_eq_getElem_of_lt _ _ _ (by rw [List.length_replicate]; exact hi)]
    exact List.getElem_replicate ..
  obtain ⟨st2, hsolve, hlen2, hsum2, hge2⟩ :=
    solveLoop_full junk (chiFull junk targets (ell.sum + cash)) ell (ell.sum + cash) n
      hchiFn he (by linarith) 1000
      (xInit junk targets (ell.sum + cash) n) (List.replicate n 0) false
      hxn (List.length_replicate ..)
      (xInit_sum junk targets (ell.sum + cash) n hn0 ht)
      hmu0inv (Or.inl (by omega))
  refine ⟨{ targetBuys := st2.x.zipWith (fun a b => a - b) ell,
            divChi := (targets.map (fun c => npDiv junk c targets.sum)).any (fun p => p.2),
            divGamma := st2.divGamma }, ?_, ?_, ?_, ?_⟩
  · simp only [identifyBuyAmounts, hcount, hg0, maskSelect_all_true targets n ht,
      maskSelect_all_true ell n he]
    have hchiEq : chiFull junk targets (ell.sum + cash) =
        (targets.map (fun c => npDiv junk c targets.sum)).map
          (fun p => p.1 * (ell.sum + cash)) := rfl
    rw [← hchiEq, maskSelect_all_true _ n hchiFn, hchiFn]
    have hxEq : xInit junk targets (ell.sum + cash) n =
        (chiFull junk targets (ell.sum + cash)).map
          (fun c => c - 1 / 2 * (2 / ((n : Nat) : Rat) *
            ((chiFull junk targets (ell.sum + cash)).sum - (ell.sum + cash)))) := rfl
    rw [← hxEq, hmaE]
    split
    · next e heq => cases heq
    · next x0 heq =>
      injection heq with hx0
      subst hx0
      rw [hsolve]
  · show (st2.x.zipWith (fun a b => a - b) ell).length = n
    rw [List.length_zipWith, hlen2, he]
    exact Nat.min_self n
  · show (st2.x.zipWith (fun a b => a - b) ell).sum = cash
    rw [zipWith_sub_sum st2.x ell (by rw [hlen2, he]), hsum2]
    ring
  · intro i hi
    show 0 ≤ (st2.x.zipWith (fun a b => a - b) ell).getD i 0
    rw [getD_zipWith _ st2.x ell n i hlen2 he hi]
    have := hge2 i hi
    linarith

/-- C8: the Allocation Solver is idempotent on its own output. On a full
active set, the first run returns buy amounts r.targetBuys; replacing every
floor by the allocation the solver chose (floor plus bought amount, so the
total T is unchanged and the remaining cash is zero) and re-running returns
all-zero buy amounts, i.e. the same allocation unchanged. -/
theorem c8_solver_idempotent (junk : Rat → Rat) (targets ell : List Rat) (cash : Rat)
    (n : Nat) (ht : targets.length = n) (he : ell.length = n) (hn : 1 ≤ n)
    (hcap : n ≤ 1000) (hcash : 0 ≤ cash) :
    ∃ r r2 : SolveResult,
      identifyBuyAmounts junk targets ell (List.replicate n true) cash = .ok r ∧
      identifyBuyAmounts junk targets (ell.zipWith (fun a b => a + b) r.targetBuys)
        (List.replicate n true) 0 = .ok r2 ∧
      r2.targetBuys = List.replicate n 0 := by
  obtain ⟨r, hrun, hrlen, hrsum, hrge⟩ :=
    identifyBuyAmounts_feasible junk targets ell cash n ht he hn hcap hcash
  have hel2 : (ell.zipWith (fun a b => a + b) r.targetBuys).length = n := by
    rw [List.length_zipWith, he, hrlen]
    exact Nat.min_self n
  obtain ⟨r2, hrun2, hr2len, hr2sum, hr2ge⟩ :=
    identifyBuyAmounts_feasible junk targets
      (ell.zipWith (fun a b => a + b) r.targetBuys) 0 n ht hel2 hn hcap le_rfl
  exact ⟨r, r2, hrun, hrun2,
    all_zero_of_nonneg_sum_zero n r2.targetBuys hr2len hr2ge hr2sum⟩

/-- C8, witness: a two-class 60/40 portfolio with no holdings and cash 10;
re-running with the resulting allocation as the floors and no cash buys
nothing further. -/
theorem c8_solver_idempotent_witness :
    ∃ r r2 : SolveResult,
      identifyBuyAmounts (fun _ => 0) [60, 40] [0, 0] (List.replicate 2 true) 10 = .ok r ∧
      identifyBuyAmounts (fun _ => 0) [60, 40]
        ([0, 0].zipWith (fun a b => a + b) r.targetBuys) (List.replicate 2 true) 0 = .ok r2 ∧
      r2.targetBuys = List.replicate 2 0 :=
  c8_solver_idempotent (fun _ => 0) [60, 40] [0, 0] 10 2 rfl rfl (by omega) (by omega)
    (by norm_num)

end Rebalancer
